import Mathlib

/-!
Verification of the task-dependency and session-state engine of `specctl`
(`scripts/specctl.py`): a shallow embedding of its frontmatter store, entity
records, dependency-graph engine and session/progress tracker, together with
theorems about the properties stated in the design document.

Python strings are modelled as `List Char`; Python dicts (used for document
metadata, which preserves insertion order) are modelled as ordered association
lists with the exact replace-in-place / append-at-end update semantics of
`dict.__setitem__`.
-/

namespace Specctl

/-- Python strings, modelled as raw character lists. -/
abbrev Str := List Char

/-- Character list of a Lean string literal. -/
def lit (s : String) : Str := s.data

/-- The characters stripped by Python's `str.strip()` with no argument
(ASCII whitespace; the documents at hand contain no other whitespace). -/
def isPySpace (c : Char) : Bool :=
  c = ' ' || c = '\t' || c = '\n' || c = '\x0b' || c = '\x0c' || c = '\r'

/-- `str.lstrip()`. -/
def lstripChars (l : Str) : Str := l.dropWhile isPySpace

/-- `str.rstrip()`. -/
def rstripChars (l : Str) : Str := (l.reverse.dropWhile isPySpace).reverse

/-- `str.strip()`. -/
def stripChars (l : Str) : Str := rstripChars (lstripChars l)

/-- A quote character, for Python's `str.strip("\"'")`. -/
def isQuote (c : Char) : Bool := c = '"' || c = '\''

/-- `str.strip("\"'")`: remove leading and trailing quote characters. -/
def stripQuotes (l : Str) : Str := ((l.dropWhile isQuote).reverse.dropWhile isQuote).reverse

/-- Split at the first occurrence of `sep`, returning the parts before and
after it; `none` when `sep` does not occur. -/
def splitFirst (sep : Str) : Str → Option (Str × Str)
  | [] => none
  | c :: rest =>
      if sep.isPrefixOf (c :: rest) then some ([], (c :: rest).drop sep.length)
      else
        match splitFirst sep rest with
        | some (pre, post) => some (c :: pre, post)
        | none => none

/-- Python `s.split(sep, 2)`: split at the first two occurrences of `sep`. -/
def pySplit2 (sep : Str) (l : Str) : List Str :=
  match splitFirst sep l with
  | none => [l]
  | some (a, r) =>
      match splitFirst sep r with
      | none => [a, r]
      | some (b, c) => [a, b, c]

/-- Python `s.split(c)` for a single-character separator: always returns at
least one part, and `n+1` parts for `n` occurrences. -/
def splitOnChar (c : Char) : Str → List Str
  | [] => [[]]
  | d :: t =>
      if d = c then [] :: splitOnChar c t
      else
        match splitOnChar c t with
        | [] => [[d]]
        | l :: ls => (d :: l) :: ls

/-- Python `"\n".join(lines)`. -/
def joinNL : List Str → Str
  | [] => []
  | [l] => l
  | l :: ls => l ++ '\n' :: joinNL ls

/-- A metadata value as produced/consumed by the frontmatter store: a scalar
string, a boolean, or a list of strings. -/
inductive YVal
  | str (s : Str)
  | bool (b : Bool)
  | list (items : List Str)
deriving DecidableEq, Repr

/-- A Python dict of metadata: insertion-ordered association list. -/
abbrev Metadata := List (Str × YVal)

/-- `metadata.get(k)`: first binding of `k` (keys are unique in a dict). -/
def metaGet (m : Metadata) (k : Str) : Option YVal :=
  (m.find? (fun p => decide (p.1 = k))).map (·.2)

/-- `metadata[k] = v` on a Python dict: replace in place when the key is
present, append at the end otherwise. -/
def metaInsert (m : Metadata) (k : Str) (v : YVal) : Metadata :=
  if m.any (fun p => decide (p.1 = k)) then
    m.map (fun p => if p.1 = k then (k, v) else p)
  else m ++ [(k, v)]

/-- `metadata.update(updates)`: apply each binding in order. -/
def metaUpdate (m : Metadata) (updates : Metadata) : Metadata :=
  updates.foldl (fun acc p => metaInsert acc p.1 p.2) m

/-! ### Frontmatter store (`parse_frontmatter` / `serialize_frontmatter`) -/

/-- Loop state of the line machine inside `parse_frontmatter`:
`metadata`, `current_key` and `current_list`. -/
structure PState where
  md : Metadata
  key : Option Str
  acc : List Str
deriving DecidableEq, Repr

/-- Python truthiness of `current_key`: not `None` and not the empty string. -/
def keyTruthy : Option Str → Bool
  | some k => decide (k ≠ [])
  | none => false

/-- The `if current_key and current_list:` save of a pending list. -/
def flushState (st : PState) : PState :=
  if keyTruthy st.key && !st.acc.isEmpty then
    ⟨metaInsert st.md (st.key.getD []) (.list st.acc), none, []⟩
  else st

/-- Parsing of an inline list `[a, b]`: split `value[1:-1]` on commas, keep the
items whose `strip()` is nonempty, stripping whitespace then quotes. -/
def parseInlineList (value : Str) : List Str :=
  (splitOnChar ',' (value.drop 1).dropLast).filterMap fun item =>
    let it := stripChars item
    if it.isEmpty then none else some (stripQuotes it)

/-- One iteration of the `for line in yaml_part.split("\n")` loop of
`parse_frontmatter`. -/
def parseYamlLine (st : PState) (raw : Str) : PState :=
  let line := rstripChars raw
  if (lit "  - ").isPrefixOf line then
    if keyTruthy st.key then { st with acc := st.acc ++ [stripChars (line.drop 4)] }
    else st
  else
    let st1 := flushState st
    if line.contains ':' then
      match splitFirst [':'] line with
      | some (kRaw, vRaw) =>
          let key := stripChars kRaw
          let value := stripChars vRaw
          if value.isEmpty then { st1 with key := some key }
          else if (lit "[").isPrefixOf value && (lit "]").isSuffixOf value then
            { st1 with md := metaInsert st1.md key (.list (parseInlineList value)) }
          else
            { st1 with md := metaInsert st1.md key (.str (stripQuotes value)) }
      | none => st1
    else st1

/-- The final `if current_key and current_list:` save after the loop. -/
def finishParse (st : PState) : Metadata :=
  if keyTruthy st.key && !st.acc.isEmpty then
    metaInsert st.md (st.key.getD []) (.list st.acc)
  else st.md

/-- `parse_frontmatter(content) -> (metadata, body)`. -/
def parse_frontmatter (content : Str) : Metadata × Str :=
  if !(lit "---").isPrefixOf content then ([], content)
  else
    match pySplit2 (lit "---") content with
    | [_, p1, p2] =>
        let yamlPart := stripChars p1
        let body := stripChars p2
        (finishParse ((splitOnChar '\n' yamlPart).foldl parseYamlLine ⟨[], none, []⟩), body)
    | _ => ([], content)

/-- The lines emitted by `serialize_frontmatter` for one metadata binding:
block form for nonempty lists, `[]` for empty lists, lowercase booleans,
`key: value` for scalars. -/
def entryLines : Str × YVal → List Str
  | (k, .str s) => [k ++ lit ": " ++ s]
  | (k, .bool b) => [k ++ lit ": " ++ (if b then lit "true" else lit "false")]
  | (k, .list []) => [k ++ lit ": []"]
  | (k, .list items) => (k ++ [':']) :: items.map (fun i => lit "  - " ++ i)

/-- All metadata lines emitted by `serialize_frontmatter`. -/
def metaLines (m : Metadata) : List Str := (m.map entryLines).flatten

/-- `serialize_frontmatter(metadata, body) -> text`. -/
def serialize_frontmatter (m : Metadata) (body : Str) : Str :=
  joinNL (lit "---" :: metaLines m ++ [lit "---", [], body])

/-- Whether `---` occurs as a substring (at any position). -/
def hasTriple : Str → Bool
  | [] => false
  | c :: t => (lit "---").isPrefixOf (c :: t) || hasTriple t

/-- A key the round trip can restore: nonempty, no surrounding whitespace
(parsing strips it), no colon (the parser splits at the first one), no
newline, and no `---` (the delimiter split would truncate the block). -/
def wfKey (k : Str) : Bool :=
  decide (k ≠ []) && decide (lstripChars k = k) && decide (rstripChars k = k) &&
    decide (':' ∉ k) && decide ('\n' ∉ k) && !hasTriple k

/-- A scalar string value the round trip can restore: additionally not
quote-wrapped (the parser strips quotes) and not bracket-enclosed (the parser
would reparse it as an inline list). -/
def wfScalar (s : Str) : Bool :=
  decide (s ≠ []) && decide (lstripChars s = s) && decide (rstripChars s = s) &&
    decide ('\n' ∉ s) && !hasTriple s && decide (stripQuotes s = s) &&
    !((lit "[").isPrefixOf s && (lit "]").isSuffixOf s)

/-- A list item the round trip can restore. -/
def wfItem (i : Str) : Bool :=
  decide (i ≠ []) && decide (lstripChars i = i) && decide (rstripChars i = i) &&
    decide ('\n' ∉ i) && !hasTriple i

/-- A metadata value the round trip can restore.  Booleans are excluded: the
parser has no boolean recognition, so `serialize` writes `true`/`false` but
`parse` reads them back as strings. -/
def wfVal : YVal → Bool
  | .str s => wfScalar s
  | .bool _ => false
  | .list items => items.all wfItem

/-- A metadata dict the round trip restores exactly: distinct well-formed
keys, values that are well-formed scalars or lists of well-formed items. -/
def wfMeta (m : Metadata) : Bool :=
  m.all (fun p => wfKey p.1 && wfVal p.2) && decide ((m.map Prod.fst).Nodup)

/-! ### Entity repository and dependency graph engine

A loaded task is modelled by the fields the engine reads from its metadata:
`status` and `priority` (`metadata.get`, `none` = field absent), and
`blocked-by` / `discovered-from` already coerced by the
`if isinstance(blocked_by, str): blocked_by = [blocked_by]` branch.  The
embedding identifies a task's id with its file stem, the repository's default
(`id` defaults to the stem, and task files are named `{id}.md`). -/

structure Task where
  id : String
  status : Option String
  priority : Option String
  blockedBy : List String
  discoveredFrom : List String
deriving DecidableEq, Repr

/-- The completion set `done_ids = {t["id"] for t in tasks if ... == "done"}`
(a list with the same membership). -/
def doneIds (tasks : List Task) : List String :=
  (tasks.filter (fun t => t.status = some "done")).map (·.id)

/-- The body of the `ready` filter loop of `get_ready_tasks`: status `todo`
and no unmet `blocked-by` entry. -/
def isReady (tasks : List Task) (t : Task) : Bool :=
  t.status = some "todo" && t.blockedBy.all (fun b => (doneIds tasks).contains b)

/-- `priority_order.get(metadata.get("priority", "normal"), 1)` with
`{"critical": 0, "normal": 1, "low": 2}`. -/
def priorityRank (t : Task) : Nat :=
  let p := t.priority.getD "normal"
  if p = "critical" then 0 else if p = "normal" then 1 else if p = "low" then 2 else 1

/-- `get_ready_tasks`: filter the loaded tasks, then `list.sort` (a stable
sort) keyed on the priority rank. -/
def get_ready_tasks (tasks : List Task) : List Task :=
  (tasks.filter (isReady tasks)).mergeSort
    (fun a b => decide (priorityRank a ≤ priorityRank b))

/-- `get_deps` inside `would_create_cycle`: look the id up in
`task_map = {t["id"]: t for t in all_tasks}` (a dict comprehension, so a
later task with the same id overwrites an earlier one), defaulting to `[]`. -/
def getDeps (tasks : List Task) (tid : String) : List String :=
  match tasks.reverse.find? (fun t => t.id = tid) with
  | some t => t.blockedBy
  | none => []

/-- The recursive `dfs(current, path)` of `would_create_cycle`, made total by
structural fuel (the Python recursion always terminates because every node
enters `path` before being expanded and nodes already in `path` are skipped;
any sufficiently large fuel computes the same answer, which the soundness and
completeness theorems below make precise).  The dead
`if current == task_id: deps = deps + [new_dep_id]` branch of the source is
kept verbatim. -/
def dfsAux (tasks : List Task) (taskId newDepId : String) :
    Nat → String → List String → Option (List String)
  | 0, _, _ => none
  | fuel + 1, current, path =>
      if current = taskId then some (path ++ [current])
      else
        let deps := getDeps tasks current
        let deps := if current = taskId then deps ++ [newDepId] else deps
        deps.findSome? fun dep =>
          if dep ∈ path then none
          else dfsAux tasks taskId newDepId fuel dep (path ++ [current])

/-- Every `blocked-by` entry of every task: a bound on the length of any
duplicate-free dependency chain. -/
def allDeps (tasks : List Task) : List String :=
  tasks.foldr (fun t acc => t.blockedBy ++ acc) []

/-- `would_create_cycle(task_id, new_dep_id)`: DFS from `new_dep_id` along
existing `blocked-by` edges, returning the path when it reaches `task_id`. -/
def would_create_cycle (tasks : List Task) (taskId newDepId : String) :
    Option (List String) :=
  dfsAux tasks taskId newDepId ((allDeps tasks).length + 1) newDepId []

/-- A `blocked-by` chain from `a` through the successive nodes `vs` to `b`
(`vs = []` is the trivial chain `a = b`). -/
def depChain (tasks : List Task) : String → List String → String → Prop
  | a, [], b => a = b
  | a, v :: vs, b => v ∈ getDeps tasks a ∧ depChain tasks v vs b

/-- Outcome of `cmd_dep_add`.  `cycleRejected` and the not-found outcomes are
`error_exit` calls issued before any write, so they carry no new state;
`added` carries the updated task files. -/
inductive DepAddResult
  | taskNotFound
  | depNotFound
  | alreadyDiscovered
  | discoveredAdded (tasks' : List Task)
  | alreadyDepends
  | cycleRejected (cyclePath : List String)
  | added (tasks' : List Task)
deriving DecidableEq, Repr

/-- `cmd_dep_add` on loaded state: existence checks for both files, the
`discovered-from` branch without a cycle check, and the default `blocks`
branch with the `would_create_cycle` guard before the write. -/
def cmd_dep_add (tasks : List Task) (taskId depId : String) (depType : String) :
    DepAddResult :=
  match tasks.find? (fun t => t.id = taskId) with
  | none => .taskNotFound
  | some task =>
      if !tasks.any (fun t => t.id = depId) then .depNotFound
      else if depType = "discovered-from" then
        if depId ∈ task.discoveredFrom then .alreadyDiscovered
        else
          .discoveredAdded (tasks.map fun t =>
            if t.id = taskId then { t with discoveredFrom := t.discoveredFrom ++ [depId] }
            else t)
      else
        if depId ∈ task.blockedBy then .alreadyDepends
        else
          match would_create_cycle tasks taskId depId with
          | some cycle => .cycleRejected cycle
          | none =>
              .added (tasks.map fun t =>
                if t.id = taskId then { t with blockedBy := t.blockedBy ++ [depId] }
                else t)

/-! ### Validation (`cmd_validate`) -/

/-- An epic as read by the command layer. -/
structure Epic where
  id : String
  status : Option String
  tasks : List String
deriving DecidableEq, Repr

/-- A validation finding, in the order `cmd_validate` collects them. -/
inductive Finding
  | missingStatus (id : String)
  | danglingDep (taskId dep : String)
  | epicMissingStatus (id : String)
  | epicDanglingTask (epicId taskRef : String)
  | depCycle (id : String)
deriving DecidableEq, Repr

/-- The per-task issues of `cmd_validate`: missing `status` field, then each
`blocked-by` entry whose task file does not exist. -/
def taskFindings (tasks : List Task) : List Finding :=
  (tasks.map fun t =>
    (if t.status = none then [Finding.missingStatus t.id] else []) ++
      t.blockedBy.filterMap fun dep =>
        if tasks.any (fun v => v.id = dep) then none
        else some (Finding.danglingDep t.id dep)).flatten

/-- The per-epic issues of `cmd_validate`. -/
def epicFindings (tasks : List Task) (epics : List Epic) : List Finding :=
  (epics.map fun e =>
    (if e.status = none then [Finding.epicMissingStatus e.id] else []) ++
      e.tasks.filterMap fun ref =>
        if tasks.any (fun v => v.id = ref) then none
        else some (Finding.epicDanglingTask e.id ref)).flatten

/-- The three-colour `has_cycle(task_id, visited, path)` of `cmd_validate`,
with the mutable `visited` set threaded through the recursion over the
dependencies and structural fuel for totality (the task lookup is
`next(t for t in all_tasks if ...)`, the first match). -/
def hasCycleAux (tasks : List Task) :
    Nat → String → List String → List String → Bool × List String
  | 0, _, visited, _ => (false, visited)
  | fuel + 1, tid, visited, path =>
      if tid ∈ path then (true, visited)
      else if tid ∈ visited then (false, visited)
      else
        let visited := tid :: visited
        let deps :=
          match tasks.find? (fun t => t.id = tid) with
          | some t => t.blockedBy
          | none => []
        deps.foldl
          (fun acc dep =>
            if acc.1 then acc
            else hasCycleAux tasks fuel dep acc.2 (tid :: path))
          (false, visited)

/-- The cycle pass of `cmd_validate`: report the first task on a cycle and
`break`. -/
def cycleFindings (tasks : List Task) : List Finding :=
  match tasks.find?
      (fun t => (hasCycleAux tasks (tasks.length + (allDeps tasks).length + 1) t.id [] []).1) with
  | some t => [Finding.depCycle t.id]
  | none => []

/-- `cmd_validate` on loaded state: the collected findings and the exit code
(1 when any finding exists, otherwise 0). -/
def cmd_validate (tasks : List Task) (epics : List Epic) : List Finding × Nat :=
  let issues := taskFindings tasks ++ epicFindings tasks epics ++ cycleFindings tasks
  (issues, if issues.isEmpty then 0 else 1)

/-! ### Progress log (`log_progress`) -/

/-- `log_progress`: the new lines of `PROGRESS.md` as a function of the lines
already in the file and the freshly appended entry line, truncated to the last
10 (`lines[-10:]`). -/
def log_progress (prior : List String) (entry : String) : List String :=
  let lines := prior ++ [entry]
  if lines.length > 10 then lines.drop (lines.length - 10) else lines

/-! ### External version-control query (`get_repo_root`, session tracking)

`subprocess.run(["git", ...], check=True)` has two failure modes: a non-zero
exit raises `CalledProcessError`, and a missing `git` executable raises
`FileNotFoundError` from `subprocess.run` itself. -/

inductive GitResult
  | ok (stdout : String)
  | exitNonzero
  | execNotFound
deriving DecidableEq, Repr

/-- An exception escaping a command. -/
inductive PyExc
  | calledProcessError
  | fileNotFoundError
deriving DecidableEq, Repr

/-- `get_repo_root`: `git rev-parse --show-toplevel` guarded by
`except subprocess.CalledProcessError` only — a `FileNotFoundError` from a
missing executable is not caught and propagates. -/
def get_repo_root (cwd : String) (git : GitResult) : Except PyExc String :=
  match git with
  | .ok out => .ok out.trim
  | .exitNonzero => .ok cwd
  | .execNotFound => .error .fileNotFoundError

/-- A session record: the insertion-ordered key/value pairs written to
`SESSION.yaml`. -/
abbrev Session := List (String × String)

/-- `session_start`: build the session dict (`task`, `step=planning`,
`started`), then capture `base_commit` from the argument or from
`git rev-parse --short HEAD`; only `CalledProcessError` is caught (the field
is then omitted), a `FileNotFoundError` propagates. -/
def session_start (taskId : String) (baseCommit : Option String)
    (git : GitResult) (nowTs : String) : Except PyExc Session :=
  let session : Session := [("task", taskId), ("step", "planning"), ("started", nowTs)]
  match baseCommit with
  | some bc => .ok (session ++ [("base_commit", bc)])
  | none =>
      match git with
      | .ok out => .ok (session ++ [("base_commit", out.trim)])
      | .exitNonzero => .ok session
      | .execNotFound => .error .fileNotFoundError

/-- The diff-stat capture in `cmd_session handoff`: guarded by
`except (subprocess.CalledProcessError, FileNotFoundError)`, so both failure
modes degrade to an empty diff-stat. -/
def handoff_diff_stat (baseCommit : String) (git : GitResult) : String :=
  if baseCommit = "" then ""
  else
    match git with
    | .ok out => out.trim
    | .exitNonzero => ""
    | .execNotFound => ""

/-! ### `cmd_epic_close` -/

/-- Outcome of `cmd_epic_close` after the epic file was found and loaded.
`refusedIncomplete` is an `error_exit` (exit 1) before any write; `closed`
carries the updated epic and the untouched task files. -/
inductive EpicCloseResult
  | alreadyDone
  | refusedIncomplete (incomplete : List String)
  | closed (epic' : Epic) (tasks' : List Task)
deriving DecidableEq, Repr

/-- The `incomplete` list built by `cmd_epic_close`: listed task refs whose
file exists with a status other than `done` (missing files are skipped). -/
def epicIncomplete (tasks : List Task) (epic : Epic) : List String :=
  epic.tasks.filter fun ref =>
    match tasks.find? (fun t => t.id = ref) with
    | some task => !(task.status = some "done")
    | none => false

/-- `cmd_epic_close`: refuse when some listed task file exists with a status
other than `done` and `--force` is absent; otherwise write `status: done` to
the epic file only (task files are never written). -/
def cmd_epic_close (tasks : List Task) (epic : Epic) (force : Bool) :
    EpicCloseResult :=
  if epic.status.getD "open" = "done" then .alreadyDone
  else if !(epicIncomplete tasks epic).isEmpty && !force then
    .refusedIncomplete (epicIncomplete tasks epic)
  else .closed { epic with status := some "done" } tasks

/-- Exit code of `cmd_epic_close` (`error_exit` uses code 1). -/
def epicCloseExit : EpicCloseResult → Nat
  | .refusedIncomplete _ => 1
  | _ => 0

/-! ### `cmd_reset` and `cmd_done` (document-level) -/

/-- `metadata.get("status", "todo")` of a parsed task document. -/
def getStatusVal (m : Metadata) : YVal :=
  (metaGet m (lit "status")).getD (.str (lit "todo"))

/-- Outcome of `cmd_reset` after the task file was found.  `noop` is the
`already todo` early return: exit 0, no file write, no progress-log entry.
`reset` carries the rewritten document and the progress-log action. -/
inductive ResetResult
  | noop
  | reset (metadata' : Metadata) (body' : Str) (logAction : String)
deriving DecidableEq, Repr

/-- `cmd_reset`: early return when the status is already `todo` (or absent);
otherwise delete every `done-*` key, set `status: todo` in place and rewrite
the file with the same body, then log `RESET`. -/
def cmd_reset (m : Metadata) (body : Str) : ResetResult :=
  if getStatusVal m = .str (lit "todo") then .noop
  else
    let md := m.filter fun p => !(lit "done-").isPrefixOf p.1
    .reset (metaInsert md (lit "status") (.str (lit "todo"))) body "RESET"

/-- The evidence flags of `cmd_done`; `none` models an absent flag (argparse
default), and Python's `if args.x:` also skips an empty string. -/
structure DoneArgs where
  summary : Option Str
  files : Option Str
  commits : Option Str
  tests : Option Str
deriving DecidableEq, Repr

/-- `[x.strip() for x in s.split(",")]`. -/
def splitCommaStrip (s : Str) : List Str := (splitOnChar ',' s).map stripChars

/-- The `updates` dict built by `cmd_done`, in insertion order. -/
def doneUpdates (args : DoneArgs) (nowTs : Str) : Metadata :=
  [(lit "status", .str (lit "done")), (lit "done-at", .str nowTs)] ++
    (match args.summary with
      | some s => if s.isEmpty then [] else [(lit "done-summary", .str s)]
      | none => []) ++
    (match args.files with
      | some s => if s.isEmpty then [] else [(lit "done-files", .list (splitCommaStrip s))]
      | none => []) ++
    (match args.commits with
      | some s => if s.isEmpty then [] else [(lit "done-commits", .list (splitCommaStrip s))]
      | none => []) ++
    (match args.tests with
      | some s => if s.isEmpty then [] else [(lit "done-tests", .str s)]
      | none => [])

/-- Result record of `cmd_done`. -/
structure DoneOutcome where
  metadata' : Metadata
  body' : Str
  logAction : String
  session' : Option Session
deriving DecidableEq, Repr

/-- `cmd_done` after the task file was found: update the frontmatter with the
`updates` dict, log `DONE`, and end the session (the session file is deleted
unconditionally).  There is no check of the current status anywhere. -/
def cmd_done (m : Metadata) (body : Str) (args : DoneArgs) (nowTs : Str) :
    DoneOutcome :=
  ⟨metaUpdate m (doneUpdates args nowTs), body, "DONE", none⟩

/-! ## Lemmas about the metadata dict operations -/

theorem metaGet_append_right {m : Metadata} {k : Str}
    (h : ∀ p ∈ m, p.1 ≠ k) (rest : Metadata) :
    metaGet (m ++ rest) k = metaGet rest k := by
  unfold metaGet
  rw [List.find?_append]
  have : m.find? (fun p => decide (p.1 = k)) = none := by
    rw [List.find?_eq_none]
    intro p hp
    simp [h p hp]
  rw [this]
  rfl

theorem metaInsert_of_not_mem {m : Metadata} {k : Str}
    (h : ∀ p ∈ m, p.1 ≠ k) (v : YVal) :
    metaInsert m k v = m ++ [(k, v)] := by
  unfold metaInsert
  have : m.any (fun p => decide (p.1 = k)) = false := by
    simp only [List.any_eq_false, decide_eq_true_eq]
    exact h
  rw [this]
  simp

theorem metaGet_mapReplace_self (m : Metadata) (k : Str) (v : YVal)
    (hc : ∃ p ∈ m, p.1 = k) :
    metaGet (m.map fun p => if p.1 = k then (k, v) else p) k = some v := by
  induction m with
  | nil =>
      rcases hc with ⟨p, hp, _⟩
      cases hp
  | cons p t ih =>
      simp only [List.map_cons]
      by_cases hp : p.1 = k
      · rw [if_pos hp]
        unfold metaGet
        rw [List.find?_cons_of_pos _ (by simp)]
        rfl
      · rw [if_neg hp]
        unfold metaGet
        rw [List.find?_cons_of_neg _ (by simpa using hp)]
        apply ih
        rcases hc with ⟨q, hq, hqe⟩
        rcases List.mem_cons.mp hq with h1 | h1
        · exact absurd (h1 ▸ hqe) hp
        · exact ⟨q, h1, hqe⟩

theorem metaGet_metaInsert_self (m : Metadata) (k : Str) (v : YVal) :
    metaGet (metaInsert m k v) k = some v := by
  unfold metaInsert
  by_cases hc : m.any (fun p => decide (p.1 = k)) = true
  · rw [if_pos hc]
    apply metaGet_mapReplace_self
    simpa only [List.any_eq_true, decide_eq_true_eq] using hc
  · rw [if_neg hc]
    have h : ∀ p ∈ m, p.1 ≠ k := by
      intro p hp he
      exact hc (List.any_eq_true.mpr ⟨p, hp, by simpa using he⟩)
    rw [metaGet_append_right h]
    simp [metaGet]

theorem metaGet_mapReplace_ne (m : Metadata) {k k' : Str} (h : k' ≠ k) (v : YVal) :
    metaGet (m.map fun p => if p.1 = k then (k, v) else p) k' = metaGet m k' := by
  induction m with
  | nil => rfl
  | cons p t ih =>
      simp only [List.map_cons]
      by_cases hp : p.1 = k
      · rw [if_pos hp]
        unfold metaGet
        rw [List.find?_cons_of_neg _ (by simpa using fun he => h he.symm),
          List.find?_cons_of_neg _ (by rw [hp]; simpa using fun he => h he.symm)]
        exact ih
      · rw [if_neg hp]
        by_cases hk : p.1 = k'
        · unfold metaGet
          rw [List.find?_cons_of_pos _ (by simpa using hk),
            List.find?_cons_of_pos _ (by simpa using hk)]
        · unfold metaGet
          rw [List.find?_cons_of_neg _ (by simpa using hk),
            List.find?_cons_of_neg _ (by simpa using hk)]
          exact ih

theorem metaGet_metaInsert_ne (m : Metadata) {k k' : Str} (h : k' ≠ k) (v : YVal) :
    metaGet (metaInsert m k v) k' = metaGet m k' := by
  unfold metaInsert
  by_cases hc : m.any (fun p => decide (p.1 = k)) = true
  · rw [if_pos hc]
    exact metaGet_mapReplace_ne m h v
  · rw [if_neg hc]
    unfold metaGet
    rw [List.find?_append]
    have : List.find? (fun p => decide (p.1 = k')) [(k, v)] = none := by
      rw [List.find?_eq_none]
      intro p hp
      simp only [List.mem_singleton] at hp
      subst hp
      simpa using fun he => h he.symm
    rw [this]
    cases m.find? (fun p => decide (p.1 = k')) <;> rfl

theorem metaGet_metaUpdate_of_keys_ne (m : Metadata) (us : Metadata) (k : Str)
    (h : ∀ p ∈ us, p.1 ≠ k) :
    metaGet (metaUpdate m us) k = metaGet m k := by
  induction us generalizing m with
  | nil => rfl
  | cons u t ih =>
      have step : metaUpdate m (u :: t) = metaUpdate (metaInsert m u.1 u.2) t := rfl
      rw [step, ih _ (fun p hp => h p (List.mem_cons_of_mem _ hp))]
      exact metaGet_metaInsert_ne m (fun he => h u (List.mem_cons_self u t) he.symm) u.2

theorem metaGet_filter (q : Str → Bool) (m : Metadata) (k : Str) :
    metaGet (m.filter fun p => q p.1) k = if q k then metaGet m k else none := by
  induction m with
  | nil => simp [metaGet]
  | cons p t ih =>
      simp only [List.filter_cons]
      by_cases hq : q p.1 = true
      · rw [if_pos hq]
        by_cases hk : p.1 = k
        · subst hk
          unfold metaGet
          rw [List.find?_cons_of_pos _ (by simp), List.find?_cons_of_pos _ (by simp)]
          simp [hq]
        · unfold metaGet
          rw [List.find?_cons_of_neg _ (by simpa using hk),
            List.find?_cons_of_neg _ (by simpa using hk)]
          exact ih
      · rw [if_neg hq]
        by_cases hk : p.1 = k
        · subst hk
          rw [ih]
          by_cases hqk : q p.1 = true
          · exact absurd hqk hq
          · simp [hqk]
        · rw [ih]
          unfold metaGet
          rw [List.find?_cons_of_neg _ (by simpa using hk)]

theorem metaInsert_keys_of_mem {m : Metadata} {k : Str}
    (h : ∃ p ∈ m, p.1 = k) (v : YVal) :
    (metaInsert m k v).map Prod.fst = m.map Prod.fst := by
  unfold metaInsert
  have hc : m.any (fun p => decide (p.1 = k)) = true := by
    simp only [List.any_eq_true, decide_eq_true_eq]
    exact h
  rw [if_pos hc, List.map_map]
  apply List.map_congr_left
  intro p _
  by_cases hp : p.1 = k
  · simp [hp]
  · simp [hp]

/-! ## Claim theorems for the session tracker and progress log -/

/-- C5 — The spec claims every failure of the external git query (non-zero
exit or missing executable) is caught and degrades to "value unavailable".
The code catches `CalledProcessError` only: on a non-zero exit
`get_repo_root` does fall back to the working directory and `session_start`
does omit `base_commit`, but when the `git` executable is missing, the
`FileNotFoundError` raised by `subprocess.run` propagates uncaught out of
both functions — while the diff-stat query in `cmd_session handoff` catches
both exception types, witnessing the intended pattern. -/
theorem git_failure_handling :
    get_repo_root "/work" .exitNonzero = .ok "/work" ∧
    session_start "TASK-a" none .exitNonzero "2024-01-01T00:00:00Z" =
      .ok [("task", "TASK-a"), ("step", "planning"),
        ("started", "2024-01-01T00:00:00Z")] ∧
    handoff_diff_stat "abc1234" .execNotFound = "" ∧
    get_repo_root "/work" .execNotFound = .error .fileNotFoundError ∧
    session_start "TASK-a" none .execNotFound "2024-01-01T00:00:00Z" =
      .error .fileNotFoundError :=
  ⟨rfl, rfl, rfl, rfl, rfl⟩

/-- C7 — After every `log_progress` call the progress file holds at most 10
entries, the newest entry is last, and appending to a file already holding 10
entries drops exactly the oldest one. -/
theorem log_progress_cap (prior : List String) (entry : String) :
    (log_progress prior entry).length ≤ 10 ∧
    (log_progress prior entry).getLast? = some entry ∧
    (prior.length = 10 → log_progress prior entry = prior.drop 1 ++ [entry]) := by
  unfold log_progress
  by_cases h : (prior ++ [entry]).length > 10
  · rw [if_pos h]
    simp only [List.length_append, List.length_cons, List.length_nil] at h
    have hk : (prior ++ [entry]).length - 10 ≤ prior.length := by
      simp only [List.length_append, List.length_cons, List.length_nil]
      omega
    rw [List.drop_append_of_le_length hk]
    refine ⟨?_, ?_, ?_⟩
    · simp only [List.length_append, List.length_drop, List.length_cons, List.length_nil]
      omega
    · exact List.getLast?_concat _
    · intro h10
      simp only [List.length_append, List.length_cons, List.length_nil, h10]
    -- with length 10 the dropped count is 1
  · rw [if_neg h]
    simp only [List.length_append, List.length_cons, List.length_nil, gt_iff_lt,
      not_lt] at h
    refine ⟨?_, List.getLast?_concat _, ?_⟩
    · simp only [List.length_append, List.length_cons, List.length_nil]
      omega
    · intro h10
      omega

theorem log_progress_cap_witness :
    (log_progress ["e1", "e2", "e3", "e4", "e5", "e6", "e7", "e8", "e9", "e10"]
        "e11").length ≤ 10 ∧
    (log_progress ["e1", "e2", "e3", "e4", "e5", "e6", "e7", "e8", "e9", "e10"]
        "e11").getLast? = some "e11" ∧
    log_progress ["e1", "e2", "e3", "e4", "e5", "e6", "e7", "e8", "e9", "e10"] "e11" =
      ["e2", "e3", "e4", "e5", "e6", "e7", "e8", "e9", "e10", "e11"] := by
  have h := log_progress_cap
    ["e1", "e2", "e3", "e4", "e5", "e6", "e7", "e8", "e9", "e10"] "e11"
  exact ⟨h.1, h.2.1, (h.2.2 (by decide)).trans (by decide)⟩

/-- C10 — `cmd_done` has no precondition on the current status: for any
loaded task document it sets `status: done`, overwrites `done-at` with the
current timestamp, and clears the session. -/
theorem cmd_done_unconditional (m : Metadata) (body : Str) (args : DoneArgs)
    (nowTs : Str) :
    metaGet (cmd_done m body args nowTs).metadata' (lit "status") =
      some (.str (lit "done")) ∧
    metaGet (cmd_done m body args nowTs).metadata' (lit "done-at") =
      some (.str nowTs) ∧
    (cmd_done m body args nowTs).session' = none := by
  have hbase : doneUpdates args nowTs =
      [(lit "status", .str (lit "done")), (lit "done-at", .str nowTs)] ++
        (doneUpdates args nowTs).drop 2 := by
    unfold doneUpdates
    rfl
  have hopt : ∀ p ∈ (doneUpdates args nowTs).drop 2,
      p.1 ≠ lit "status" ∧ p.1 ≠ lit "done-at" := by
    intro p hp
    unfold doneUpdates at hp
    simp only [List.cons_append, List.nil_append, List.drop_succ_cons,
      List.drop_zero, List.mem_append] at hp
    rcases hp with ((h1 | h1) | h1) | h1
    · cases hs : args.summary with
      | none =>
          rw [hs] at h1
          dsimp only at h1
          exact absurd h1 (List.not_mem_nil p)
      | some s =>
          rw [hs] at h1
          dsimp only at h1
          by_cases he : s.isEmpty = true
          · rw [if_pos he] at h1
            exact absurd h1 (List.not_mem_nil p)
          · rw [if_neg he] at h1
            simp only [List.mem_singleton] at h1
            subst h1
            exact ⟨by dsimp only; decide, by dsimp only; decide⟩
    · cases hs : args.files with
      | none =>
          rw [hs] at h1
          dsimp only at h1
          exact absurd h1 (List.not_mem_nil p)
      | some s =>
          rw [hs] at h1
          dsimp only at h1
          by_cases he : s.isEmpty = true
          · rw [if_pos he] at h1
            exact absurd h1 (List.not_mem_nil p)
          · rw [if_neg he] at h1
            simp only [List.mem_singleton] at h1
            subst h1
            exact ⟨by dsimp only; decide, by dsimp only; decide⟩
    · cases hs : args.commits with
      | none =>
          rw [hs] at h1
          dsimp only at h1
          exact absurd h1 (List.not_mem_nil p)
      | some s =>
          rw [hs] at h1
          dsimp only at h1
          by_cases he : s.isEmpty = true
          · rw [if_pos he] at h1
            exact absurd h1 (List.not_mem_nil p)
          · rw [if_neg he] at h1
            simp only [List.mem_singleton] at h1
            subst h1
            exact ⟨by dsimp only; decide, by dsimp only; decide⟩
    · cases hs : args.tests with
      | none =>
          rw [hs] at h1
          dsimp only at h1
          exact absurd h1 (List.not_mem_nil p)
      | some s =>
          rw [hs] at h1
          dsimp only at h1
          by_cases he : s.isEmpty = true
          · rw [if_pos he] at h1
            exact absurd h1 (List.not_mem_nil p)
          · rw [if_neg he] at h1
            simp only [List.mem_singleton] at h1
            subst h1
            exact ⟨by dsimp only; decide, by dsimp only; decide⟩
  have hsession : (cmd_done m body args nowTs).session' = none := rfl
  have hmeta : (cmd_done m body args nowTs).metadata' =
      metaUpdate
        (metaInsert (metaInsert m (lit "status") (.str (lit "done")))
          (lit "done-at") (.str nowTs))
        ((doneUpdates args nowTs).drop 2) := by
    show metaUpdate m (doneUpdates args nowTs) = _
    rw [hbase]
    rfl
  refine ⟨?_, ?_, hsession⟩
  · rw [hmeta, metaGet_metaUpdate_of_keys_ne _ _ _ (fun p hp => (hopt p hp).1),
      metaGet_metaInsert_ne _ (by decide) _, metaGet_metaInsert_self]
  · rw [hmeta, metaGet_metaUpdate_of_keys_ne _ _ _ (fun p hp => (hopt p hp).2),
      metaGet_metaInsert_self]

/-- C9 — `reset` on a task already in `todo` (explicitly or by the absent-field
default) is a no-op: exit 0, no write, no log entry.  On a `done` or
`in_progress` task it rewrites the document with `status: todo`, every
`done-*` key removed, and every other key (in its original position) and the
body unchanged. -/
theorem cmd_reset_spec (m : Metadata) (body : Str) :
    (getStatusVal m = .str (lit "todo") → cmd_reset m body = .noop) ∧
    (∀ s, metaGet m (lit "status") = some (.str s) →
      s = lit "done" ∨ s = lit "in_progress" →
      ∃ md', cmd_reset m body = .reset md' body "RESET" ∧
        metaGet md' (lit "status") = some (.str (lit "todo")) ∧
        (∀ k, (lit "done-").isPrefixOf k = true → metaGet md' k = none) ∧
        (∀ k, (lit "done-").isPrefixOf k = false → k ≠ lit "status" →
          metaGet md' k = metaGet m k) ∧
        md'.map Prod.fst =
          (m.filter fun p => !(lit "done-").isPrefixOf p.1).map Prod.fst) := by
  constructor
  · intro h
    unfold cmd_reset
    rw [if_pos h]
  · intro s hs hdone
    have hne : ¬ getStatusVal m = .str (lit "todo") := by
      unfold getStatusVal
      rw [hs]
      simp only [Option.getD_some]
      rcases hdone with h | h <;> subst h <;> decide
    unfold cmd_reset
    rw [if_neg hne]
    refine ⟨_, rfl, ?_, ?_, ?_, ?_⟩
    · exact metaGet_metaInsert_self _ _ _
    · intro k hk
      have hkne : k ≠ lit "status" := by
        intro h
        subst h
        exact absurd hk (by decide)
      rw [metaGet_metaInsert_ne _ hkne,
        metaGet_filter (fun x => !(lit "done-").isPrefixOf x) m k]
      simp [hk]
    · intro k hk hkne
      rw [metaGet_metaInsert_ne _ hkne,
        metaGet_filter (fun x => !(lit "done-").isPrefixOf x) m k]
      simp [hk]
    · apply metaInsert_keys_of_mem
      rcases Option.map_eq_some'.mp hs with ⟨p0, hp0, hval⟩
      refine ⟨p0, ?_, ?_⟩
      · rw [List.mem_filter]
        refine ⟨List.mem_of_find?_eq_some hp0, ?_⟩
        have := List.find?_some hp0
        simp only [decide_eq_true_eq] at this
        rw [this]
        decide
      · have := List.find?_some hp0
        simpa using this

theorem cmd_reset_spec_witness :
    ∃ md',
      cmd_reset
          [(lit "status", .str (lit "done")), (lit "done-at", .str (lit "t1")),
            (lit "priority", .str (lit "low"))] (lit "B") =
        .reset md' (lit "B") "RESET" ∧
      metaGet md' (lit "status") = some (.str (lit "todo")) ∧
      (∀ k, (lit "done-").isPrefixOf k = true → metaGet md' k = none) ∧
      (∀ k, (lit "done-").isPrefixOf k = false → k ≠ lit "status" →
        metaGet md' k =
          metaGet
            [(lit "status", .str (lit "done")), (lit "done-at", .str (lit "t1")),
              (lit "priority", .str (lit "low"))] k) ∧
      md'.map Prod.fst =
        (([(lit "status", .str (lit "done")), (lit "done-at", .str (lit "t1")),
            (lit "priority", .str (lit "low"))] : Metadata).filter
          fun p => !(lit "done-").isPrefixOf p.1).map Prod.fst :=
  (cmd_reset_spec _ _).2 (lit "done") (by decide) (Or.inl rfl)

/-- C8 — An epic that is not already `done`, listing a task whose file exists
with a status other than `done`, is refused by `epic close` without `--force`
(exit 1, nothing written), and closed by `epic close --force` with only the
epic's status changing to `done` while the task files are untouched. -/
theorem epic_close_guard (tasks : List Task) (epic : Epic) (u : Task)
    (ref : String)
    (hopen : ¬ epic.status.getD "open" = "done")
    (href : ref ∈ epic.tasks)
    (hfind : tasks.find? (fun t => t.id = ref) = some u)
    (hu : ¬ u.status = some "done") :
    (∃ inc, cmd_epic_close tasks epic false = .refusedIncomplete inc ∧
      inc ≠ []) ∧
    epicCloseExit (cmd_epic_close tasks epic false) = 1 ∧
    cmd_epic_close tasks epic true =
      .closed { epic with status := some "done" } tasks := by
  have hmem : ref ∈ epicIncomplete tasks epic := by
    unfold epicIncomplete
    rw [List.mem_filter]
    refine ⟨href, ?_⟩
    rw [hfind]
    simpa using hu
  have hie : (epicIncomplete tasks epic).isEmpty = false := by
    rcases h : (epicIncomplete tasks epic).isEmpty with _ | _
    · rfl
    · rw [List.isEmpty_iff] at h
      rw [h] at hmem
      exact absurd hmem (List.not_mem_nil ref)
  have hrefused : cmd_epic_close tasks epic false =
      .refusedIncomplete (epicIncomplete tasks epic) := by
    unfold cmd_epic_close
    rw [if_neg hopen, hie]
    rfl
  have hforced : cmd_epic_close tasks epic true =
      .closed { epic with status := some "done" } tasks := by
    unfold cmd_epic_close
    rw [if_neg hopen]
    simp
  refine ⟨⟨epicIncomplete tasks epic, hrefused, List.ne_nil_of_mem hmem⟩, ?_, hforced⟩
  rw [hrefused]
  rfl

theorem epic_close_guard_witness :
    (∃ inc,
      cmd_epic_close [⟨"TASK-1", some "todo", none, [], []⟩]
          ⟨"EPIC-1", some "open", ["TASK-1"]⟩ false = .refusedIncomplete inc ∧
        inc ≠ []) ∧
    epicCloseExit
        (cmd_epic_close [⟨"TASK-1", some "todo", none, [], []⟩]
          ⟨"EPIC-1", some "open", ["TASK-1"]⟩ false) = 1 ∧
    cmd_epic_close [⟨"TASK-1", some "todo", none, [], []⟩]
        ⟨"EPIC-1", some "open", ["TASK-1"]⟩ true =
      .closed ⟨"EPIC-1", some "done", ["TASK-1"]⟩
        [⟨"TASK-1", some "todo", none, [], []⟩] :=
  epic_close_guard [⟨"TASK-1", some "todo", none, [], []⟩]
    ⟨"EPIC-1", some "open", ["TASK-1"]⟩ ⟨"TASK-1", some "todo", none, [], []⟩
    "TASK-1" (by decide) (by decide) (by decide) (by decide)

/-! ## The readiness view (`get_ready_tasks`) -/

theorem priorityRank_le_two (t : Task) : priorityRank t ≤ 2 := by
  unfold priorityRank
  dsimp only
  split_ifs <;> omega

theorem rank_sorted_decompose (M : List Task)
    (h : M.Pairwise fun a b => priorityRank a ≤ priorityRank b) :
    M = (M.filter fun t => priorityRank t = 0) ++
        (M.filter fun t => priorityRank t = 1) ++
        (M.filter fun t => priorityRank t = 2) := by
  induction M with
  | nil => rfl
  | cons x tl ih =>
      rw [List.pairwise_cons] at h
      rcases h with ⟨hx, htl⟩
      have hx2 := priorityRank_le_two x
      have hcase : priorityRank x = 0 ∨ priorityRank x = 1 ∨ priorityRank x = 2 := by
        omega
      rcases hcase with h0 | h1 | h2
      · rw [List.filter_cons_of_pos (by simp [h0]),
          List.filter_cons_of_neg (by simp [h0]),
          List.filter_cons_of_neg (by simp [h0]),
          List.cons_append, List.cons_append]
        exact congrArg (x :: ·) (ih htl)
      · have hf0 : tl.filter (fun t => priorityRank t = 0) = [] := by
          rw [List.filter_eq_nil_iff]
          intro y hy
          have := hx y hy
          simp only [decide_eq_true_eq]
          omega
        rw [List.filter_cons_of_neg (by simp [h1]),
          List.filter_cons_of_pos (by simp [h1]),
          List.filter_cons_of_neg (by simp [h1]),
          hf0, List.nil_append, List.cons_append]
        have := ih htl
        rw [hf0, List.nil_append] at this
        exact congrArg (x :: ·) this
      · have hf0 : tl.filter (fun t => priorityRank t = 0) = [] := by
          rw [List.filter_eq_nil_iff]
          intro y hy
          have := hx y hy
          simp only [decide_eq_true_eq]
          omega
        have hf1 : tl.filter (fun t => priorityRank t = 1) = [] := by
          rw [List.filter_eq_nil_iff]
          intro y hy
          have := hx y hy
          simp only [decide_eq_true_eq]
          omega
        rw [List.filter_cons_of_neg (by simp [h2]),
          List.filter_cons_of_neg (by simp [h2]),
          List.filter_cons_of_pos (by simp [h2]),
          hf0, hf1, List.nil_append, List.nil_append]
        have := ih htl
        rw [hf0, hf1, List.nil_append, List.nil_append] at this
        exact congrArg (x :: ·) this

theorem mergeSort_rank_buckets (l : List Task) :
    l.mergeSort (fun a b => decide (priorityRank a ≤ priorityRank b)) =
      (l.filter fun t => priorityRank t = 0) ++
      (l.filter fun t => priorityRank t = 1) ++
      (l.filter fun t => priorityRank t = 2) := by
  have htrans : ∀ a b c : Task,
      decide (priorityRank a ≤ priorityRank b) = true →
      decide (priorityRank b ≤ priorityRank c) = true →
      decide (priorityRank a ≤ priorityRank c) = true := by
    intro a b c hab hbc
    simp only [decide_eq_true_eq] at *
    omega
  have htotal : ∀ a b : Task,
      (decide (priorityRank a ≤ priorityRank b) ||
        decide (priorityRank b ≤ priorityRank a)) = true := by
    intro a b
    simp only [Bool.or_eq_true, decide_eq_true_eq]
    omega
  have hsorted := List.sorted_mergeSort htrans htotal l
  have hperm := List.mergeSort_perm l
    (fun a b => decide (priorityRank a ≤ priorityRank b))
  have heq : ∀ k : Nat,
      (l.mergeSort (fun a b => decide (priorityRank a ≤ priorityRank b))).filter
          (fun t => priorityRank t = k) =
        l.filter (fun t => priorityRank t = k) := by
    intro k
    have hsub : (l.filter fun t => priorityRank t = k).Sublist l :=
      List.filter_sublist l
    have hpw : (l.filter fun t => priorityRank t = k).Pairwise
        (fun a b => decide (priorityRank a ≤ priorityRank b) = true) := by
      apply List.pairwise_of_forall_mem_list
      intro a ha b hb
      rw [List.mem_filter] at ha hb
      simp only [decide_eq_true_eq] at *
      omega
    have hBk := List.sublist_mergeSort htrans htotal hpw hsub
    have hpermk := hperm.filter (fun t => decide (priorityRank t = k))
    have hsubk : (l.filter fun t => priorityRank t = k).Sublist
        ((l.mergeSort (fun a b => decide (priorityRank a ≤ priorityRank b))).filter
          (fun t => priorityRank t = k)) := by
      have hself : (l.filter fun t => priorityRank t = k).filter
          (fun t => priorityRank t = k) = l.filter fun t => priorityRank t = k := by
        rw [List.filter_eq_self]
        intro a ha
        exact (List.mem_filter.mp ha).2
      have hf := List.Sublist.filter (fun t => decide (priorityRank t = k)) hBk
      rw [hself] at hf
      exact hf
    exact (hsubk.eq_of_length (hpermk.length_eq.symm)).symm
  have hdec := rank_sorted_decompose
    (l.mergeSort (fun a b => decide (priorityRank a ≤ priorityRank b)))
    (hsorted.imp (by simp only [decide_eq_true_eq]; exact fun h => h))
  rw [hdec, heq 0, heq 1, heq 2]

/-- C3 — `get_ready_tasks` returns exactly the loaded tasks whose status is
`todo` and whose every `blocked-by` entry is the id of a loaded task with
status `done` (in particular a `todo` task with empty `blocked-by` is always
included), ordered as the stable sort by priority rank critical=0, normal=1,
low=2: the rank-0 tasks in original order, then rank 1, then rank 2. -/
theorem get_ready_tasks_spec (tasks : List Task) :
    (∀ t, t ∈ get_ready_tasks tasks ↔
      t ∈ tasks ∧ t.status = some "todo" ∧
        ∀ b ∈ t.blockedBy, ∃ u ∈ tasks, u.id = b ∧ u.status = some "done") ∧
    get_ready_tasks tasks =
      ((tasks.filter (isReady tasks)).filter fun t => priorityRank t = 0) ++
      ((tasks.filter (isReady tasks)).filter fun t => priorityRank t = 1) ++
      ((tasks.filter (isReady tasks)).filter fun t => priorityRank t = 2) ∧
    (∀ t, t ∈ tasks → t.status = some "todo" → t.blockedBy = [] →
      t ∈ get_ready_tasks tasks) := by
  have hready : ∀ t, isReady tasks t = true ↔
      (t.status = some "todo" ∧
        ∀ b ∈ t.blockedBy, ∃ u ∈ tasks, u.id = b ∧ u.status = some "done") := by
    intro t
    unfold isReady doneIds
    simp only [Bool.and_eq_true, decide_eq_true_eq, List.all_eq_true]
    constructor
    · rintro ⟨h1, h2⟩
      refine ⟨h1, fun b hb => ?_⟩
      have := h2 b hb
      rw [List.contains, List.elem_iff, List.mem_map] at this
      rcases this with ⟨u, hu, hid⟩
      rw [List.mem_filter] at hu
      exact ⟨u, hu.1, hid, by simpa using hu.2⟩
    · rintro ⟨h1, h2⟩
      refine ⟨h1, fun b hb => ?_⟩
      rcases h2 b hb with ⟨u, hu, hid, hst⟩
      rw [List.contains, List.elem_iff, List.mem_map]
      exact ⟨u, List.mem_filter.mpr ⟨hu, by simpa using hst⟩, hid⟩
  have hmem : ∀ t, t ∈ get_ready_tasks tasks ↔
      t ∈ tasks ∧ isReady tasks t = true := by
    intro t
    unfold get_ready_tasks
    rw [(List.mergeSort_perm _ _).mem_iff, List.mem_filter]
  refine ⟨?_, ?_, ?_⟩
  · intro t
    rw [hmem t, hready t]
  · unfold get_ready_tasks
    exact mergeSort_rank_buckets _
  · intro t ht hst hbb
    rw [hmem t, hready t]
    exact ⟨ht, hst, by rw [hbb]; intro b hb; exact absurd hb (List.not_mem_nil b)⟩

theorem get_ready_tasks_spec_witness :
    ⟨"T1", some "todo", none, [], []⟩ ∈
      get_ready_tasks
        [⟨"T1", some "todo", none, [], []⟩,
          ⟨"T2", some "todo", none, ["T1"], []⟩] :=
  (get_ready_tasks_spec
      [⟨"T1", some "todo", none, [], []⟩,
        ⟨"T2", some "todo", none, ["T1"], []⟩]).2.2
    ⟨"T1", some "todo", none, [], []⟩ (by decide) (by decide) (by decide)

/-- Marking a task done (`cmd_done` writes `status: done` to its file). -/
def markDone (t : Task) : Task := { t with status := some "done" }

theorem doneIds_mono (l₁ l₂ : List Task) (t : Task) :
    ∀ b ∈ doneIds (l₁ ++ t :: l₂), b ∈ doneIds (l₁ ++ markDone t :: l₂) := by
  intro b hb
  unfold doneIds at hb ⊢
  rw [List.mem_map] at hb ⊢
  rcases hb with ⟨u, hu, hid⟩
  rw [List.mem_filter] at hu
  rcases hu with ⟨humem, hust⟩
  rcases List.mem_append.mp humem with h | h
  · exact ⟨u, List.mem_filter.mpr ⟨List.mem_append_left _ h, hust⟩, hid⟩
  · rcases List.mem_cons.mp h with h | h
    · subst h
      exact ⟨markDone u,
        List.mem_filter.mpr
          ⟨List.mem_append_right _ (List.mem_cons_self _ _), by simp [markDone]⟩,
        hid⟩
    · exact ⟨u,
        List.mem_filter.mpr
          ⟨List.mem_append_right _ (List.mem_cons_of_mem _ h), hust⟩, hid⟩

/-- C4 — Readiness is monotone in completion: writing `status: done` to one
task file never removes any other task from `get_ready_tasks`. -/
theorem readiness_monotone (l₁ l₂ : List Task) (t u : Task)
    (hu : u ∈ l₁ ++ l₂)
    (hready : u ∈ get_ready_tasks (l₁ ++ t :: l₂)) :
    u ∈ get_ready_tasks (l₁ ++ markDone t :: l₂) := by
  unfold get_ready_tasks at hready ⊢
  rw [(List.mergeSort_perm _ _).mem_iff, List.mem_filter] at hready ⊢
  rcases hready with ⟨_, hr⟩
  refine ⟨?_, ?_⟩
  · rcases List.mem_append.mp hu with h | h
    · exact List.mem_append_left _ h
    · exact List.mem_append_right _ (List.mem_cons_of_mem _ h)
  · unfold isReady at hr ⊢
    simp only [Bool.and_eq_true, List.all_eq_true] at hr ⊢
    refine ⟨hr.1, fun b hb => ?_⟩
    have hold := hr.2 b hb
    rw [List.contains, List.elem_iff] at hold ⊢
    exact doneIds_mono l₁ l₂ t b hold

theorem readiness_monotone_witness :
    ⟨"T2", some "todo", none, [], []⟩ ∈
      get_ready_tasks
        [⟨"T2", some "todo", none, [], []⟩,
          markDone ⟨"T1", some "todo", none, [], []⟩] :=
  readiness_monotone [⟨"T2", some "todo", none, [], []⟩] []
    ⟨"T1", some "todo", none, [], []⟩ ⟨"T2", some "todo", none, [], []⟩
    (by decide)
    (by unfold get_ready_tasks
        rw [(List.mergeSort_perm _ _).mem_iff]
        decide)

/-- C6 — A `todo` task with a `blocked-by` entry naming no existing task is
never ready (the missing id never enters the done set), and `validate`
reports the dangling reference as a finding and exits 1. -/
theorem dangling_dep_spec (tasks : List Task) (epics : List Epic) (u : Task)
    (dep : String)
    (hu : u ∈ tasks) (htodo : u.status = some "todo") (hdep : dep ∈ u.blockedBy)
    (hmiss : ∀ v ∈ tasks, v.id ≠ dep) :
    u ∉ get_ready_tasks tasks ∧
    Finding.danglingDep u.id dep ∈ (cmd_validate tasks epics).1 ∧
    (cmd_validate tasks epics).2 = 1 := by
  have hfind : Finding.danglingDep u.id dep ∈ taskFindings tasks := by
    unfold taskFindings
    rw [List.mem_flatten]
    refine ⟨_, List.mem_map.mpr ⟨u, hu, rfl⟩, ?_⟩
    apply List.mem_append_right
    rw [List.mem_filterMap]
    refine ⟨dep, hdep, ?_⟩
    have hany : tasks.any (fun v => v.id = dep) = false := by
      simp only [List.any_eq_false, decide_eq_true_eq]
      exact hmiss
    rw [hany]
    rfl
  have hissue : Finding.danglingDep u.id dep ∈ (cmd_validate tasks epics).1 :=
    List.mem_append_left _ (List.mem_append_left _ hfind)
  refine ⟨?_, hissue, ?_⟩
  · intro hmem
    unfold get_ready_tasks at hmem
    rw [(List.mergeSort_perm _ _).mem_iff, List.mem_filter] at hmem
    have hr := hmem.2
    unfold isReady at hr
    simp only [Bool.and_eq_true, List.all_eq_true] at hr
    have := hr.2 dep hdep
    rw [List.contains, List.elem_iff] at this
    unfold doneIds at this
    rw [List.mem_map] at this
    rcases this with ⟨v, hv, hvid⟩
    rw [List.mem_filter] at hv
    exact hmiss v hv.1 hvid
  · show (if _ then 0 else 1) = 1
    rw [if_neg]
    intro hempty
    rw [List.isEmpty_iff] at hempty
    have hissue' : Finding.danglingDep u.id dep ∈
        taskFindings tasks ++ epicFindings tasks epics ++ cycleFindings tasks :=
      hissue
    rw [hempty] at hissue'
    exact absurd hissue' (List.not_mem_nil _)

theorem dangling_dep_spec_witness :
    (⟨"T1", some "todo", none, ["GHOST"], []⟩ : Task) ∉
      get_ready_tasks [⟨"T1", some "todo", none, ["GHOST"], []⟩] ∧
    Finding.danglingDep "T1" "GHOST" ∈
      (cmd_validate [⟨"T1", some "todo", none, ["GHOST"], []⟩] []).1 ∧
    (cmd_validate [⟨"T1", some "todo", none, ["GHOST"], []⟩] []).2 = 1 :=
  dangling_dep_spec [⟨"T1", some "todo", none, ["GHOST"], []⟩] []
    ⟨"T1", some "todo", none, ["GHOST"], []⟩ "GHOST"
    (by decide) (by decide) (by decide) (by decide)

/-! ## Cycle prevention (`would_create_cycle` / `cmd_dep_add`) -/

theorem findSome?_isSome_of_mem {α β : Type} {f : α → Option β} {l : List α}
    {x : α} (hx : x ∈ l) (hf : (f x).isSome = true) :
    (l.findSome? f).isSome = true := by
  induction l with
  | nil => exact absurd hx (List.not_mem_nil x)
  | cons y t ih =>
      rw [List.findSome?_cons]
      cases hy : f y with
      | some b => rfl
      | none =>
          rcases List.mem_cons.mp hx with h | h
          · subst h
            rw [hy] at hf
            exact absurd hf (by simp)
          · exact ih h

theorem depChain_getLast {tasks : List Task} {b : String} :
    ∀ {vs : List String} {a : String}, depChain tasks a vs b →
      (a :: vs).getLast? = some b
  | [], a, h => by
      unfold depChain at h
      subst h
      rfl
  | v :: vs, a, h => by
      rcases h with ⟨_, htail⟩
      rw [List.getLast?_cons_cons]
      exact depChain_getLast htail

theorem mem_allDeps_of_mem {tasks : List Task} {t : Task} {b : String}
    (ht : t ∈ tasks) (hb : b ∈ t.blockedBy) : b ∈ allDeps tasks := by
  induction tasks with
  | nil => exact absurd ht (List.not_mem_nil t)
  | cons x rest ih =>
      show b ∈ x.blockedBy ++ allDeps rest
      rcases List.mem_cons.mp ht with h | h
      · subst h
        exact List.mem_append_left _ hb
      · exact List.mem_append_right _ (ih h)

theorem getDeps_subset_allDeps (tasks : List Task) (tid : String) :
    ∀ b ∈ getDeps tasks tid, b ∈ allDeps tasks := by
  intro b hb
  unfold getDeps at hb
  cases hfind : tasks.reverse.find? (fun t => t.id = tid) with
  | none =>
      rw [hfind] at hb
      exact absurd hb (List.not_mem_nil b)
  | some t =>
      rw [hfind] at hb
      have ht : t ∈ tasks := List.mem_reverse.mp (List.mem_of_find?_eq_some hfind)
      exact mem_allDeps_of_mem ht hb

theorem depChain_subset_allDeps {tasks : List Task} {b : String} :
    ∀ {vs : List String} {a : String}, depChain tasks a vs b →
      ∀ v ∈ vs, v ∈ allDeps tasks
  | [], _, _ => by
      intro v hv
      exact absurd hv (List.not_mem_nil v)
  | v :: vs, a, h => by
      rcases h with ⟨hv, htail⟩
      intro w hw
      rcases List.mem_cons.mp hw with h1 | h1
      · subst h1
        exact getDeps_subset_allDeps tasks a w hv
      · exact depChain_subset_allDeps htail w h1

theorem depChain_mem_split {tasks : List Task} {b : String} :
    ∀ {vs : List String} {x : String}, depChain tasks x vs b →
      ∀ a ∈ vs, ∃ tail, depChain tasks a tail b ∧
        tail.length < vs.length ∧ ∀ w ∈ tail, w ∈ vs
  | [], _, _ => by
      intro a ha
      exact absurd ha (List.not_mem_nil a)
  | v :: vs, x, h => by
      rcases h with ⟨_, htail⟩
      intro a ha
      rcases List.mem_cons.mp ha with h1 | h1
      · subst h1
        exact ⟨vs, htail, by simp,
          fun w hw => List.mem_cons_of_mem _ hw⟩
      · rcases depChain_mem_split htail a h1 with ⟨tail, hc, hlen, hsub⟩
        exact ⟨tail, hc, Nat.lt_succ_of_lt hlen,
          fun w hw => List.mem_cons_of_mem _ (hsub w hw)⟩

theorem depChain_simple {tasks : List Task} {b : String} :
    ∀ (n : Nat) (vs : List String) (a : String), vs.length ≤ n →
      depChain tasks a vs b →
      ∃ ws, depChain tasks a ws b ∧ (a :: ws).Nodup ∧ ∀ w ∈ ws, w ∈ vs := by
  intro n
  induction n with
  | zero =>
      intro vs a hlen hc
      rw [Nat.le_zero, List.length_eq_zero] at hlen
      subst hlen
      exact ⟨[], hc, by simp, by simp⟩
  | succ n ih =>
      intro vs a hlen hc
      by_cases hmem : a ∈ vs
      · rcases depChain_mem_split hc a hmem with ⟨tail, hc', hlen', hsub⟩
        rcases ih tail a (by omega) hc' with ⟨ws, hw1, hw2, hw3⟩
        exact ⟨ws, hw1, hw2, fun w hw => hsub w (hw3 w hw)⟩
      · cases vs with
        | nil => exact ⟨[], hc, by simp, by simp⟩
        | cons v vs' =>
            rcases hc with ⟨hv, htail⟩
            rcases ih vs' v (by simpa using hlen) htail with ⟨ws, hw1, hw2, hw3⟩
            refine ⟨v :: ws, ⟨hv, hw1⟩, ?_, ?_⟩
            · rw [List.nodup_cons]
              refine ⟨?_, hw2⟩
              intro hin
              apply hmem
              rcases List.mem_cons.mp hin with h1 | h1
              · subst h1
                exact List.mem_cons_self _ _
              · exact List.mem_cons_of_mem _ (hw3 a h1)
            · intro w hw
              rcases List.mem_cons.mp hw with h1 | h1
              · subst h1
                exact List.mem_cons_self _ _
              · exact List.mem_cons_of_mem _ (hw3 w h1)

theorem nodup_length_le {ws l : List String}
    (hnd : ws.Nodup) (hsub : ∀ w ∈ ws, w ∈ l) : ws.length ≤ l.length := by
  have h1 : ws.toFinset.card = ws.length := List.toFinset_card_of_nodup hnd
  have h2 : ws.toFinset ⊆ l.toFinset := by
    intro x hx
    rw [List.mem_toFinset] at hx ⊢
    exact hsub x hx
  have h3 := Finset.card_le_card h2
  have h4 := List.toFinset_card_le l
  omega

theorem dfsAux_sound (tasks : List Task) (taskId newDepId : String) :
    ∀ (fuel : Nat) (current : String) (path : List String) (p : List String),
      dfsAux tasks taskId newDepId fuel current path = some p →
      ∃ vs, depChain tasks current vs taskId ∧ p = path ++ current :: vs := by
  intro fuel
  induction fuel with
  | zero => intro current path p h; cases h
  | succ fuel ih =>
      intro current path p h
      rw [dfsAux] at h
      by_cases hcur : current = taskId
      · rw [if_pos hcur] at h
        refine ⟨[], hcur, ?_⟩
        injection h.symm with h'

      · simp only [if_neg hcur] at h
        rcases List.exists_of_findSome?_eq_some h with ⟨dep, hdep, hf⟩
        by_cases hp : dep ∈ path
        · rw [if_pos hp] at hf
          cases hf
        · rw [if_neg hp] at hf
          rcases ih dep (path ++ [current]) p hf with ⟨vs, hchain, hpeq⟩
          exact ⟨dep :: vs, ⟨hdep, hchain⟩, by simpa using hpeq⟩

theorem dfsAux_complete (tasks : List Task) (taskId newDepId : String) :
    ∀ (vs : List String) (fuel : Nat) (current : String) (path : List String),
      depChain tasks current vs taskId →
      (current :: vs).Nodup →
      (∀ v ∈ current :: vs, v ∉ path) →
      vs.length + 1 ≤ fuel →
      (dfsAux tasks taskId newDepId fuel current path).isSome = true := by
  intro vs
  induction vs with
  | nil =>
      intro fuel current path hc _ _ hfuel
      unfold depChain at hc
      subst hc
      cases fuel with
      | zero => omega
      | succ fuel =>
          rw [dfsAux, if_pos rfl]
          rfl
  | cons v vs' ih =>
      intro fuel current path hc hnd hpath hfuel
      cases fuel with
      | zero => omega
      | succ fuel =>
          rw [dfsAux]
          by_cases hcur : current = taskId
          · rw [if_pos hcur]
            rfl
          · simp only [if_neg hcur]
            rcases hc with ⟨hv, htail⟩
            apply findSome?_isSome_of_mem hv
            have hvp : v ∉ path := hpath v (List.mem_cons_of_mem _ (List.mem_cons_self _ _))
            rw [if_neg hvp]
            apply ih fuel v (path ++ [current]) htail
            · exact (List.nodup_cons.mp hnd).2
            · intro w hw
              rw [List.mem_append]
              push_neg
              refine ⟨hpath w (List.mem_cons_of_mem _ hw), ?_⟩
              intro hwc
              rw [List.mem_singleton] at hwc
              subst hwc
              exact (List.nodup_cons.mp hnd).1 hw
            · simp only [List.length_cons] at hfuel
              omega

theorem would_create_cycle_some_of_chain (tasks : List Task) (t dep : String)
    (h : ∃ vs, depChain tasks dep vs t) :
    ∃ p, would_create_cycle tasks t dep = some p ∧
      p.head? = some dep ∧ p.getLast? = some t := by
  rcases h with ⟨vs, hc⟩
  rcases depChain_simple vs.length vs dep (Nat.le_refl _) hc with ⟨ws, hw1, hw2, hw3⟩
  have hbound : ws.length ≤ (allDeps tasks).length :=
    nodup_length_le (List.nodup_cons.mp hw2).2
      (fun w hw => depChain_subset_allDeps hw1 w hw)
  have hsome := dfsAux_complete tasks t dep ws ((allDeps tasks).length + 1) dep []
    hw1 hw2 (by simp) (by omega)
  rcases Option.isSome_iff_exists.mp hsome with ⟨p, hp⟩
  refine ⟨p, hp, ?_, ?_⟩
  · rcases dfsAux_sound tasks t dep _ dep [] p hp with ⟨vs', _, hpeq⟩
    rw [hpeq]
    rfl
  · rcases dfsAux_sound tasks t dep _ dep [] p hp with ⟨vs', hchain', hpeq⟩
    rw [hpeq, List.nil_append]
    exact depChain_getLast hchain'

theorem would_create_cycle_none_of_no_chain (tasks : List Task) (t dep : String)
    (h : ¬ ∃ vs, depChain tasks dep vs t) :
    would_create_cycle tasks t dep = none := by
  cases hp : would_create_cycle tasks t dep with
  | none => rfl
  | some p =>
      rcases dfsAux_sound tasks t dep _ dep [] p hp with ⟨vs, hchain, _⟩
      exact absurd ⟨vs, hchain⟩ h

/-- C1 — `dep add` with the default type: when any `blocked-by` path leads
from the candidate dependency `dep` back to the task `t` (including the
self-loop `dep = t`), the new edge is rejected before any write with a cycle
path that runs from `dep` to `t` (so it contains both ids); when no such path
exists, the edge is appended to `t`'s `blocked-by` list and no other task file
changes. -/
theorem dep_add_cycle_prevention (tasks : List Task) (t dep : String)
    (task0 : Task)
    (hfind : tasks.find? (fun x => x.id = t) = some task0)
    (hdep_exists : tasks.any (fun x => x.id = dep) = true)
    (hnew : dep ∉ task0.blockedBy) :
    ((∃ vs, depChain tasks dep vs t) →
      ∃ p, would_create_cycle tasks t dep = some p ∧
        cmd_dep_add tasks t dep "blocks" = .cycleRejected p ∧
        p.head? = some dep ∧ p.getLast? = some t ∧ dep ∈ p ∧ t ∈ p) ∧
    ((¬ ∃ vs, depChain tasks dep vs t) →
      cmd_dep_add tasks t dep "blocks" =
        .added (tasks.map fun x =>
          if x.id = t then { x with blockedBy := x.blockedBy ++ [dep] }
          else x)) := by
  have hpre : ∀ r : Option (List String), would_create_cycle tasks t dep = r →
      cmd_dep_add tasks t dep "blocks" =
        (match r with
          | some cycle => .cycleRejected cycle
          | none => .added (tasks.map fun x =>
              if x.id = t then { x with blockedBy := x.blockedBy ++ [dep] }
              else x)) := by
    intro r hr
    unfold cmd_dep_add
    rw [hfind]
    dsimp only
    rw [hdep_exists]
    rw [if_neg (by simp), if_neg (by decide), if_neg (by simpa using hnew), hr]
  constructor
  · intro hchain
    rcases would_create_cycle_some_of_chain tasks t dep hchain with ⟨p, hp, hh, hl⟩
    refine ⟨p, hp, hpre (some p) hp, hh, hl, ?_, ?_⟩
    · cases p with
      | nil => cases hh
      | cons a p' =>
          injection hh with hh'
          rw [hh']
          exact List.mem_cons_self _ _
    · cases hgl : p.getLast? with
      | none =>
          rw [hgl] at hl
          cases hl
      | some x =>
          rw [hgl] at hl
          injection hl with hl'
          subst hl'
          cases p with
          | nil => cases hgl
          | cons a p' =>
              have := List.getLast?_eq_getLast_of_ne_nil
                (l := a :: p') (by simp)
              rw [this] at hgl
              injection hgl with hgl'
              rw [← hgl']
              exact List.getLast_mem _
  · intro hnochain
    exact hpre none (would_create_cycle_none_of_no_chain tasks t dep hnochain)

theorem dep_add_cycle_prevention_witness :
    (∃ p,
      would_create_cycle
          [⟨"A", some "todo", none, [], []⟩, ⟨"B", some "todo", none, ["A"], []⟩]
          "A" "B" = some p ∧
      cmd_dep_add
          [⟨"A", some "todo", none, [], []⟩, ⟨"B", some "todo", none, ["A"], []⟩]
          "A" "B" "blocks" = .cycleRejected p ∧
      p.head? = some "B" ∧ p.getLast? = some "A" ∧ "B" ∈ p ∧ "A" ∈ p) ∧
    (∃ p,
      would_create_cycle [⟨"T1", some "todo", none, [], []⟩] "T1" "T1" =
        some p ∧
      cmd_dep_add [⟨"T1", some "todo", none, [], []⟩] "T1" "T1" "blocks" =
        .cycleRejected p ∧
      p.head? = some "T1" ∧ p.getLast? = some "T1" ∧ "T1" ∈ p ∧ "T1" ∈ p) :=
  ⟨(dep_add_cycle_prevention
      [⟨"A", some "todo", none, [], []⟩, ⟨"B", some "todo", none, ["A"], []⟩]
      "A" "B" ⟨"A", some "todo", none, [], []⟩
      (by decide) (by decide) (by decide)).1
    ⟨["A"], by exact ⟨by decide, rfl⟩⟩,
    (dep_add_cycle_prevention [⟨"T1", some "todo", none, [], []⟩]
      "T1" "T1" ⟨"T1", some "todo", none, [], []⟩
      (by decide) (by decide) (by decide)).1 ⟨[], rfl⟩⟩

/-! ## The frontmatter round trip: string lemmas -/

theorem lstrip_cons_space {c : Char} (hc : isPySpace c = true) (l : Str) :
    lstripChars (c :: l) = lstripChars l := by
  simp [lstripChars, List.dropWhile_cons, hc]

theorem lstrip_cons_nonspace {c : Char} (hc : isPySpace c = false) (l : Str) :
    lstripChars (c :: l) = c :: l := by
  simp [lstripChars, List.dropWhile_cons, hc]

theorem lstrip_length_le (l : Str) : (lstripChars l).length ≤ l.length :=
  (List.dropWhile_sublist _).length_le

theorem head_nonspace_of_lstrip_eq {c : Char} {t : Str}
    (h : lstripChars (c :: t) = c :: t) : isPySpace c = false := by
  cases hc : isPySpace c with
  | false => rfl
  | true =>
      have h1 := lstrip_cons_space hc t
      rw [h] at h1
      have h2 := lstrip_length_le t
      rw [← h1] at h2
      simp at h2

theorem rstrip_length_le (l : Str) : (rstripChars l).length ≤ l.length := by
  unfold rstripChars
  have h := (List.dropWhile_sublist (p := isPySpace) (l := l.reverse)).length_le
  simpa using h

theorem rstrip_concat_nonspace {c : Char} (hc : isPySpace c = false) (z : Str) :
    rstripChars (z ++ [c]) = z ++ [c] := by
  unfold rstripChars
  rw [List.reverse_append]
  simp [List.dropWhile_cons, hc]

theorem rstrip_append_space {c : Char} (hc : isPySpace c = true) (l : Str) :
    rstripChars (l ++ [c]) = rstripChars l := by
  unfold rstripChars
  rw [List.reverse_append]
  simp [List.dropWhile_cons, hc]

theorem getLast_nonspace_of_rstrip_eq {l : Str} (h : rstripChars l = l)
    (hne : l ≠ []) : ∃ x c, l = x ++ [c] ∧ isPySpace c = false := by
  cases hrl : l.reverse with
  | nil => exact absurd (by simpa using hrl) hne
  | cons c t =>
      have hl : l = t.reverse ++ [c] := by
        have : (c :: t).reverse = l := by rw [← hrl, List.reverse_reverse]
        rw [← this]
        simp
      refine ⟨t.reverse, c, hl, ?_⟩
      cases hc : isPySpace c with
      | false => rfl
      | true =>
          have h1 : rstripChars l = rstripChars t.reverse := by
            rw [hl]
            exact rstrip_append_space hc t.reverse
          rw [h] at h1
          have h2 := rstrip_length_le t.reverse
          rw [← h1] at h2
          have h4 : l.length = t.length + 1 := by
            rw [hl]
            simp
          simp only [List.length_reverse] at h2
          omega

theorem rstrip_append_nonempty {l : Str} (hr : rstripChars l = l)
    (hne : l ≠ []) (x : Str) : rstripChars (x ++ l) = x ++ l := by
  rcases getLast_nonspace_of_rstrip_eq hr hne with ⟨y, c, hl, hc⟩
  rw [hl, ← List.append_assoc, rstrip_concat_nonspace hc]

theorem rstrip_cons_nonspace {c : Char} (hc : isPySpace c = false) (t : Str) :
    rstripChars (c :: t) = c :: rstripChars t := by
  unfold rstripChars
  rw [List.reverse_cons, List.dropWhile_append]
  cases hd : (List.dropWhile isPySpace t.reverse).isEmpty with
  | false =>
      simp only [Bool.false_eq_true, if_false]
      rw [List.reverse_append]
      simp
  | true =>
      simp only [if_true]
      rw [List.isEmpty_iff] at hd
      rw [hd]
      simp [List.dropWhile_cons, hc]

theorem lstrip_append_of_lstrip_eq {l : Str} (hl : lstripChars l = l)
    (hne : l ≠ []) (x : Str) : lstripChars (l ++ x) = l ++ x := by
  cases l with
  | nil => exact absurd rfl hne
  | cons c t =>
      have hc := head_nonspace_of_lstrip_eq hl
      rw [List.cons_append]
      exact lstrip_cons_nonspace hc _

theorem stripChars_eq_self {l : Str} (h1 : lstripChars l = l)
    (h2 : rstripChars l = l) : stripChars l = l := by
  unfold stripChars
  rw [h1, h2]

theorem stripChars_cons_space {c : Char} (hc : isPySpace c = true) (l : Str) :
    stripChars (c :: l) = stripChars l := by
  unfold stripChars
  rw [lstrip_cons_space hc]

theorem isPrefixOf_nil_left (l : Str) : ([] : Str).isPrefixOf l = true := by
  cases l <;> rfl

theorem isPrefixOf_append_self (l r : Str) : l.isPrefixOf (l ++ r) = true := by
  induction l with
  | nil => exact isPrefixOf_nil_left r
  | cons c t ih => simpa [List.isPrefixOf] using ih

theorem isPrefixOf_of_length_le {p : Str} :
    ∀ {u : Str}, p.length ≤ u.length → ∀ z, p.isPrefixOf (u ++ z) = p.isPrefixOf u := by
  induction p with
  | nil =>
      intro u _ z
      rw [isPrefixOf_nil_left, isPrefixOf_nil_left]
  | cons a p' ih =>
      intro u hlen z
      cases u with
      | nil => simp at hlen
      | cons b u' =>
          simp only [List.cons_append, List.isPrefixOf, List.append_eq]
          rw [ih (by simpa using hlen) z]

theorem itemPrefix_false_of_head {c : Char} (hc : c ≠ ' ') (l : Str) :
    (lit "  - ").isPrefixOf (c :: l) = false := by
  have hb : (' ' == c) = false := beq_eq_false_iff_ne.mpr (fun h => hc h.symm)
  show ((' ' :: ' ' :: '-' :: ' ' :: []).isPrefixOf (c :: l)) = false
  simp only [List.isPrefixOf, hb, Bool.false_and]

theorem hasTriple_cons (c : Char) (y : Str) :
    hasTriple (c :: y) = ((lit "---").isPrefixOf (c :: y) || hasTriple y) := rfl

theorem hasTriple_cons_ne {c : Char} (hc : c ≠ '-') (y : Str) :
    hasTriple (c :: y) = hasTriple y := by
  rw [hasTriple_cons]
  have hb : ('-' == c) = false := beq_eq_false_iff_ne.mpr (fun h => hc h.symm)
  have hp : (lit "---").isPrefixOf (c :: y) = false := by
    show (('-' :: '-' :: '-' :: []).isPrefixOf (c :: y)) = false
    simp only [List.isPrefixOf, hb, Bool.false_and]
  rw [hp]
  rfl

theorem hasTriple_tail {c : Char} {t : Str} (h : hasTriple (c :: t) = false) :
    hasTriple t = false := by
  rw [hasTriple_cons] at h
  exact (Bool.or_eq_false_iff.mp h).2

theorem prefix_triple_false {a : Str} (hne : a ≠ [])
    (hlast : a.getLast? = some '\n') (htr : hasTriple a = false) (z : Str) :
    (lit "---").isPrefixOf (a ++ z) = false := by
  match a, hne with
  | [c], _ =>
      have hc : c = '\n' := by simpa using hlast
      subst hc
      rfl
  | [c, d], _ =>
      have hd : d = '\n' := by simpa using hlast
      subst hd
      show (('-' :: '-' :: '-' :: []).isPrefixOf (c :: '\n' :: z)) = false
      simp [List.isPrefixOf]
  | c :: d :: e :: t, _ =>
      have hlen : (lit "---").length ≤ (c :: d :: e :: t).length := by
        simp [lit]
      rw [isPrefixOf_of_length_le hlen z]
      rw [hasTriple] at htr
      exact (Bool.or_eq_false_iff.mp htr).1

theorem hasTriple_append_sep {c : Char} (hc : c ≠ '-') :
    ∀ {x : Str}, hasTriple x = false → ∀ {y : Str}, hasTriple y = false →
      hasTriple (x ++ c :: y) = false := by
  intro x
  induction x with
  | nil =>
      intro _ y hy
      rw [List.nil_append, hasTriple_cons_ne hc]
      exact hy
  | cons d x' ih =>
      intro hx y hy
      rw [List.cons_append, hasTriple]
      have hx' : hasTriple x' = false := hasTriple_tail hx
      rw [ih hx' hy]
      have hp : (lit "---").isPrefixOf (d :: (x' ++ c :: y)) = false := by
        match x' with
        | [] =>
            show (('-' :: '-' :: '-' :: []).isPrefixOf (d :: c :: y)) = false
            simp only [List.isPrefixOf]
            cases hb : ('-' == c) with
            | false => simp
            | true =>
                rw [beq_iff_eq] at hb
                exact absurd hb.symm hc
        | [e] =>
            show (('-' :: '-' :: '-' :: []).isPrefixOf (d :: e :: c :: y)) = false
            simp only [List.isPrefixOf]
            cases hb : ('-' == c) with
            | false => simp
            | true =>
                rw [beq_iff_eq] at hb
                exact absurd hb.symm hc
        | e :: f :: t' =>
            have hlen : (lit "---").length ≤ (d :: e :: f :: t').length := by
              simp [lit]
            have : d :: (e :: f :: t' ++ c :: y) = (d :: e :: f :: t') ++ c :: y := by
              simp
            rw [this, isPrefixOf_of_length_le hlen (c :: y)]
            rw [hasTriple] at hx
            exact (Bool.or_eq_false_iff.mp hx).1
      rw [hp]
      rfl

theorem splitFirst_cons (sep : Str) (c : Char) (rest : Str) :
    splitFirst sep (c :: rest) =
      if sep.isPrefixOf (c :: rest) then some ([], (c :: rest).drop sep.length)
      else
        match splitFirst sep rest with
        | some (pre, post) => some (c :: pre, post)
        | none => none := rfl

theorem splitFirst_self (sep : Str) (hsep : sep ≠ []) (r : Str) :
    splitFirst sep (sep ++ r) = some ([], r) := by
  cases sep with
  | nil => exact absurd rfl hsep
  | cons c t =>
      rw [List.cons_append, splitFirst_cons]
      have hpre : (c :: t).isPrefixOf (c :: (t ++ r)) = true := by
        have := isPrefixOf_append_self (c :: t) r
        simpa using this
      rw [hpre]
      simp only [if_true]
      have hd : (c :: (t ++ r)).drop (c :: t).length = r := by
        simp only [List.length_cons, List.drop_succ_cons]
        exact List.drop_left t r
      rw [hd]

theorem splitFirst_delim :
    ∀ {a : Str}, a ≠ [] → a.getLast? = some '\n' → hasTriple a = false →
      ∀ b, splitFirst (lit "---") (a ++ lit "---" ++ b) = some (a, b) := by
  intro a
  induction a with
  | nil => intro h; exact absurd rfl h
  | cons c a' ih =>
      intro _ hlast htr b
      have hpre : (lit "---").isPrefixOf (c :: (a' ++ lit "---" ++ b)) = false := by
        have h1 := prefix_triple_false (a := c :: a') (by simp) hlast htr
          (lit "---" ++ b)
      -- reassociate (c :: a') ++ (sep ++ b) into c :: (a' ++ sep ++ b)
        simpa using h1
      have hshape : (c :: a') ++ lit "---" ++ b = c :: (a' ++ lit "---" ++ b) := by
        simp
      rw [hshape, splitFirst_cons, hpre]
      simp only [Bool.false_eq_true, if_false]
      cases ha' : a' with
      | nil =>
          subst ha'
          rw [List.nil_append]
          rw [splitFirst_self (lit "---") (by decide) b]
      | cons d t =>
          rw [← ha']
          have hlast' : a'.getLast? = some '\n' := by
            rw [ha'] at hlast ⊢
            rw [List.getLast?_cons_cons] at hlast
            exact hlast
          have htr' : hasTriple a' = false := hasTriple_tail htr
          rw [ih (by rw [ha']; simp) hlast' htr' b]

theorem splitFirst_colon :
    ∀ {k : Str}, ':' ∉ k → ∀ v, splitFirst [':'] (k ++ ':' :: v) = some (k, v) := by
  intro k
  induction k with
  | nil =>
      intro _ v
      rw [List.nil_append, splitFirst_cons]
      rw [show ([':'] : Str).isPrefixOf (':' :: v) = true by
        simp [List.isPrefixOf, isPrefixOf_nil_left]]
      simp
  | cons c t ih =>
      intro hmem v
      have hc : c ≠ ':' := by
        intro h
        exact hmem (h ▸ List.mem_cons_self c t)
      have hb : (':' == c) = false := beq_eq_false_iff_ne.mpr (fun h => hc h.symm)
      rw [List.cons_append, splitFirst_cons]
      rw [show ([':'] : Str).isPrefixOf (c :: (t ++ ':' :: v)) = false by
        simp only [List.isPrefixOf, hb, Bool.false_and]]
      simp only [Bool.false_eq_true, if_false]
      rw [ih (fun h => hmem (List.mem_cons_of_mem c h)) v]

theorem splitOnChar_cons (c d : Char) (t : Str) :
    splitOnChar c (d :: t) =
      if d = c then [] :: splitOnChar c t
      else
        match splitOnChar c t with
        | [] => [[d]]
        | l :: ls => (d :: l) :: ls := rfl

theorem splitOnChar_ne_nil (c : Char) : ∀ l, splitOnChar c l ≠ [] := by
  intro l
  induction l with
  | nil => simp [splitOnChar]
  | cons d t ih =>
      rw [splitOnChar_cons]
      by_cases hd : d = c
      · simp [hd]
      · rw [if_neg hd]
        cases h : splitOnChar c t with
        | nil => exact absurd h ih
        | cons x xs => simp

theorem splitOnChar_no_sep {c : Char} :
    ∀ {l : Str}, c ∉ l → splitOnChar c l = [l] := by
  intro l
  induction l with
  | nil => intro _; rfl
  | cons d t ih =>
      intro hmem
      have hd : d ≠ c := fun h => hmem (h ▸ List.mem_cons_self d t)
      rw [splitOnChar_cons, if_neg hd, ih (fun h => hmem (List.mem_cons_of_mem d h))]

theorem splitOnChar_append_sep {c : Char} :
    ∀ {l : Str}, c ∉ l → ∀ r, splitOnChar c (l ++ c :: r) = l :: splitOnChar c r := by
  intro l
  induction l with
  | nil =>
      intro _ r
      rw [List.nil_append, splitOnChar_cons, if_pos rfl]
  | cons d t ih =>
      intro hmem r
      have hd : d ≠ c := fun h => hmem (h ▸ List.mem_cons_self d t)
      rw [List.cons_append, splitOnChar_cons, if_neg hd,
        ih (fun h => hmem (List.mem_cons_of_mem d h)) r]

theorem joinNL_cons_cons (l l2 : Str) (ls : List Str) :
    joinNL (l :: l2 :: ls) = l ++ '\n' :: joinNL (l2 :: ls) := rfl

theorem joinNL_append :
    ∀ {A : List Str}, A ≠ [] → ∀ {B : List Str}, B ≠ [] →
      joinNL (A ++ B) = joinNL A ++ '\n' :: joinNL B := by
  intro A
  induction A with
  | nil => intro h; exact absurd rfl h
  | cons a A' ih =>
      intro _ B hB
      cases hA' : A' with
      | nil =>
          cases B with
          | nil => exact absurd rfl hB
          | cons b B' =>
              rw [List.cons_append, List.nil_append, joinNL_cons_cons]
              rfl
      | cons a2 A'' =>
          rw [← hA']
          have h1 : A' ++ B ≠ [] := by
            rw [hA']
            simp
          rcases h2 : A' ++ B with _ | ⟨x, xs⟩
          · exact absurd h2 h1
          · rw [List.cons_append, h2, joinNL_cons_cons, ← h2,
              ih (by rw [hA']; simp) hB]
            rw [show joinNL (a :: A') = a ++ '\n' :: joinNL A' by
              rw [hA']; rfl]
            simp

theorem splitOnChar_joinNL :
    ∀ {ls : List Str}, ls ≠ [] → (∀ l ∈ ls, '\n' ∉ l) →
      splitOnChar '\n' (joinNL ls) = ls := by
  intro ls
  induction ls with
  | nil => intro h; exact absurd rfl h
  | cons l ls' ih =>
      intro _ hmem
      cases hls' : ls' with
      | nil =>
          show splitOnChar '\n' (joinNL [l]) = [l]
          exact splitOnChar_no_sep (hmem l (List.mem_cons_self l ls'))
      | cons l2 ls'' =>
          rw [← hls']
          rw [show joinNL (l :: ls') = l ++ '\n' :: joinNL ls' by
            rw [hls']; rfl]
          rw [splitOnChar_append_sep (hmem l (List.mem_cons_self l ls')),
            ih (by rw [hls']; simp)
              (fun x hx => hmem x (List.mem_cons_of_mem l hx))]

theorem hasTriple_joinNL :
    ∀ {ls : List Str}, (∀ l ∈ ls, hasTriple l = false ∧ '\n' ∉ l) →
      hasTriple (joinNL ls) = false := by
  intro ls
  induction ls with
  | nil => intro _; rfl
  | cons l ls' ih =>
      intro hmem
      cases hls' : ls' with
      | nil => exact (hmem l (List.mem_cons_self l ls')).1
      | cons l2 ls'' =>
          rw [← hls']
          rw [show joinNL (l :: ls') = l ++ '\n' :: joinNL ls' by
            rw [hls']; rfl]
          exact hasTriple_append_sep (by decide)
            (hmem l (List.mem_cons_self l ls')).1
            (ih (fun x hx => hmem x (List.mem_cons_of_mem l hx)))

/-! ## The frontmatter round trip: line-machine lemmas -/

theorem wfKey_spec {k : Str} (h : wfKey k = true) :
    k ≠ [] ∧ lstripChars k = k ∧ rstripChars k = k ∧ ':' ∉ k ∧ '\n' ∉ k ∧
      hasTriple k = false := by
  unfold wfKey at h
  simp only [Bool.and_eq_true, decide_eq_true_eq, Bool.not_eq_true'] at h
  exact ⟨h.1.1.1.1.1, h.1.1.1.1.2, h.1.1.1.2, h.1.1.2, h.1.2, h.2⟩

theorem wfScalar_spec {s : Str} (h : wfScalar s = true) :
    s ≠ [] ∧ lstripChars s = s ∧ rstripChars s = s ∧ '\n' ∉ s ∧
      hasTriple s = false ∧ stripQuotes s = s ∧
      ((lit "[").isPrefixOf s && (lit "]").isSuffixOf s) = false := by
  unfold wfScalar at h
  simp only [Bool.and_eq_true, decide_eq_true_eq, Bool.not_eq_true'] at h
  exact ⟨h.1.1.1.1.1.1, h.1.1.1.1.1.2, h.1.1.1.1.2, h.1.1.1.2, h.1.1.2, h.1.2,
    h.2⟩

theorem wfItem_spec {i : Str} (h : wfItem i = true) :
    i ≠ [] ∧ lstripChars i = i ∧ rstripChars i = i ∧ '\n' ∉ i ∧
      hasTriple i = false := by
  unfold wfItem at h
  simp only [Bool.and_eq_true, decide_eq_true_eq, Bool.not_eq_true'] at h
  exact ⟨h.1.1.1.1, h.1.1.1.2, h.1.1.2, h.1.2, h.2⟩

theorem key_head_not_space {k : Str} (hne : k ≠ []) (hl : lstripChars k = k) :
    ∃ c t, k = c :: t ∧ c ≠ ' ' := by
  cases k with
  | nil => exact absurd rfl hne
  | cons c t =>
      refine ⟨c, t, rfl, ?_⟩
      have hch := head_nonspace_of_lstrip_eq hl
      intro h
      rw [h] at hch
      exact absurd hch (by decide)

theorem isEmpty_false_of_ne_nil {α : Type} {l : List α} (h : l ≠ []) :
    l.isEmpty = false := by
  cases l with
  | nil => exact absurd rfl h
  | cons c t => rfl

theorem flushState_clean (md : Metadata) (acc : List Str) :
    flushState ⟨md, none, acc⟩ = ⟨md, none, acc⟩ := rfl

theorem flushState_flushState (st : PState) :
    flushState (flushState st) = flushState st := by
  unfold flushState
  by_cases h : (keyTruthy st.key && !st.acc.isEmpty) = true
  · rw [if_pos h]
    rfl
  · rw [if_neg h, if_neg h]

theorem keyline_pre_false {k : Str} (hne : k ≠ []) (hl : lstripChars k = k)
    (x : Str) :
    (lit "  - ").isPrefixOf (rstripChars (k ++ x)) = false := by
  rcases key_head_not_space hne hl with ⟨c, t, hk, hc⟩
  subst hk
  rw [List.cons_append,
    rstrip_cons_nonspace (head_nonspace_of_lstrip_eq hl) (t ++ x)]
  exact itemPrefix_false_of_head hc _

theorem parseYamlLine_flush {raw : Str}
    (h : (lit "  - ").isPrefixOf (rstripChars raw) = false) (st : PState) :
    parseYamlLine st raw = parseYamlLine (flushState st) raw := by
  unfold parseYamlLine
  dsimp only
  rw [h]
  simp only [Bool.false_eq_true, if_false, flushState_flushState]

theorem parseYamlLine_scalar {k s : Str} (hk : wfKey k = true)
    (hs : wfScalar s = true) (md : Metadata) :
    parseYamlLine ⟨md, none, []⟩ (k ++ lit ": " ++ s) =
      ⟨metaInsert md k (.str s), none, []⟩ := by
  obtain ⟨hkne, hkl, hkr, hkc, hkn, hkt⟩ := wfKey_spec hk
  obtain ⟨hsne, hsl, hsr, hsn, hst, hsq, hsb⟩ := wfScalar_spec hs
  have hshape : k ++ lit ": " ++ s = k ++ ':' :: ' ' :: s := by simp [lit]
  rw [hshape]
  have hline : rstripChars (k ++ ':' :: ' ' :: s) = k ++ ':' :: ' ' :: s := by
    have h1 := rstrip_append_nonempty hsr hsne (k ++ [':', ' '])
    simpa using h1
  have hpre : (lit "  - ").isPrefixOf (rstripChars (k ++ ':' :: ' ' :: s)) =
      false := keyline_pre_false hkne hkl _
  have hcontains : (k ++ ':' :: ' ' :: s).contains ':' = true := by
    rw [List.contains]
    exact List.elem_iff.mpr (by simp)
  have hsplit := splitFirst_colon hkc (' ' :: s)
  have hvalue : stripChars (' ' :: s) = s := by
    rw [stripChars_cons_space (by decide)]
    exact stripChars_eq_self hsl hsr
  unfold parseYamlLine
  dsimp only
  rw [hpre]
  simp only [Bool.false_eq_true, if_false]
  rw [hline, hcontains]
  simp only [if_true]
  rw [hsplit]
  simp only [flushState_clean]
  rw [stripChars_eq_self hkl hkr, hvalue, isEmpty_false_of_ne_nil hsne]
  simp only [Bool.false_eq_true, if_false]
  rw [hsb]
  simp only [Bool.false_eq_true, if_false]
  rw [hsq]

theorem parseYamlLine_listOpen {k : Str} (hk : wfKey k = true) (md : Metadata) :
    parseYamlLine ⟨md, none, []⟩ (k ++ [':']) = ⟨md, some k, []⟩ := by
  obtain ⟨hkne, hkl, hkr, hkc, hkn, hkt⟩ := wfKey_spec hk
  have hline : rstripChars (k ++ [':']) = k ++ [':'] :=
    rstrip_concat_nonspace (by decide) k
  have hpre : (lit "  - ").isPrefixOf (rstripChars (k ++ [':'])) = false :=
    keyline_pre_false hkne hkl _
  have hcontains : (k ++ [':']).contains ':' = true := by
    rw [List.contains]
    exact List.elem_iff.mpr (by simp)
  have hsplit := splitFirst_colon hkc []
  have hshape : k ++ [':'] = k ++ ':' :: [] := rfl
  unfold parseYamlLine
  dsimp only
  rw [hpre]
  simp only [Bool.false_eq_true, if_false]
  rw [hline, hcontains]
  simp only [if_true]
  rw [hshape, hsplit]
  simp only [flushState_clean]
  rw [show stripChars [] = [] from rfl]
  simp only [List.isEmpty_nil, if_true]
  rw [stripChars_eq_self hkl hkr]

theorem parseYamlLine_emptyList {k : Str} (hk : wfKey k = true) (md : Metadata) :
    parseYamlLine ⟨md, none, []⟩ (k ++ lit ": []") =
      ⟨metaInsert md k (.list []), none, []⟩ := by
  obtain ⟨hkne, hkl, hkr, hkc, hkn, hkt⟩ := wfKey_spec hk
  have hshape : k ++ lit ": []" = k ++ ':' :: (lit " []") := by simp [lit]
  rw [hshape]
  have hline : rstripChars (k ++ ':' :: (lit " []")) = k ++ ':' :: (lit " []") := by
    have h1 := rstrip_append_nonempty (l := lit ": []") (by decide) (by decide) k
    simpa [lit] using h1
  have hpre : (lit "  - ").isPrefixOf (rstripChars (k ++ ':' :: (lit " []"))) =
      false := keyline_pre_false hkne hkl _
  have hcontains : (k ++ ':' :: (lit " []")).contains ':' = true := by
    rw [List.contains]
    exact List.elem_iff.mpr (by simp)
  have hsplit := splitFirst_colon hkc (lit " []")
  unfold parseYamlLine
  dsimp only
  rw [hpre]
  simp only [Bool.false_eq_true, if_false]
  rw [hline, hcontains]
  simp only [if_true]
  rw [hsplit]
  simp only [flushState_clean]
  rw [show stripChars (lit " []") = lit "[]" from by decide]
  rw [show (lit "[]").isEmpty = false from rfl]
  simp only [Bool.false_eq_true, if_false]
  rw [stripChars_eq_self hkl hkr]
  rw [show ((lit "[").isPrefixOf (lit "[]") && (lit "]").isSuffixOf (lit "[]")) =
    true from by decide]
  simp only [if_true]
  rw [show parseInlineList (lit "[]") = [] from by decide]

theorem parseYamlLine_item {i : Str} (hi : wfItem i = true) {k : Str}
    (hkne : k ≠ []) (md : Metadata) (acc : List Str) :
    parseYamlLine ⟨md, some k, acc⟩ (lit "  - " ++ i) =
      ⟨md, some k, acc ++ [i]⟩ := by
  obtain ⟨hine, hil, hir, hin, hit⟩ := wfItem_spec hi
  have hline : rstripChars (lit "  - " ++ i) = lit "  - " ++ i :=
    rstrip_append_nonempty hir hine _
  have hpre : (lit "  - ").isPrefixOf (rstripChars (lit "  - " ++ i)) = true := by
    rw [hline]
    exact isPrefixOf_append_self _ _
  have hkey : keyTruthy (some k) = true := by
    simp [keyTruthy, hkne]
  have hdrop : (lit "  - " ++ i).drop 4 = i := by
    have h0 : (lit "  - ").length = 4 := rfl
    rw [← h0]
    exact List.drop_left _ _
  unfold parseYamlLine
  dsimp only
  rw [hpre]
  simp only [if_true]
  rw [hkey]
  simp only [if_true]
  rw [hline, hdrop, stripChars_eq_self hil hir]

/-! ## The frontmatter round trip: folding the serialized lines -/

theorem metaLines_cons (e : Str × YVal) (es : Metadata) :
    metaLines (e :: es) = entryLines e ++ metaLines es := by
  simp [metaLines]

theorem entryLines_exists_first {k : Str} {v : YVal} (hv : wfVal v = true) :
    ∃ X rest, entryLines (k, v) = (k ++ X) :: rest := by
  cases v with
  | str s => exact ⟨lit ": " ++ s, [], by simp [entryLines]⟩
  | bool b => exact absurd hv (by simp [wfVal])
  | list items =>
      cases items with
      | nil => exact ⟨lit ": []", [], rfl⟩
      | cons i items' => exact ⟨[':'], _, rfl⟩

theorem foldl_items {items : List Str} (hitems : ∀ i ∈ items, wfItem i = true)
    {k : Str} (hkne : k ≠ []) (md : Metadata) :
    ∀ acc,
      List.foldl parseYamlLine ⟨md, some k, acc⟩
        (items.map fun i => lit "  - " ++ i) = ⟨md, some k, acc ++ items⟩ := by
  induction items with
  | nil => intro acc; simp
  | cons i items' ih =>
      intro acc
      rw [List.map_cons, List.foldl_cons,
        parseYamlLine_item (hitems i (List.mem_cons_self i items')) hkne,
        ih (fun x hx => hitems x (List.mem_cons_of_mem i hx)) (acc ++ [i])]
      simp

theorem foldl_flush_through (es : Metadata)
    (hes : ∀ p ∈ es, wfKey p.1 = true ∧ wfVal p.2 = true)
    {k : Str} (hkne : k ≠ []) (md : Metadata) {items : List Str}
    (hitems : items ≠ []) :
    finishParse (List.foldl parseYamlLine ⟨md, some k, items⟩ (metaLines es)) =
      finishParse
        (List.foldl parseYamlLine ⟨metaInsert md k (.list items), none, []⟩
          (metaLines es)) := by
  have hie := isEmpty_false_of_ne_nil hitems
  have hcond : (keyTruthy (some k) && !items.isEmpty) = true := by
    simp [keyTruthy, hkne, hie]
  have hflush : flushState ⟨md, some k, items⟩ =
      ⟨metaInsert md k (.list items), none, []⟩ := by
    unfold flushState
    rw [if_pos hcond]
    rfl
  cases hes0 : es with
  | nil =>
      subst hes0
      simp only [metaLines, List.map_nil, List.flatten_nil, List.foldl_nil]
      unfold finishParse
      rw [if_pos hcond]
      rfl
  | cons e es' =>
      subst hes0
      obtain ⟨hk', hv'⟩ := hes e (List.mem_cons_self _ _)
      obtain ⟨hk'ne, hk'l, _, _, _, _⟩ := wfKey_spec hk'
      obtain ⟨X, rest, hfirst⟩ := entryLines_exists_first (k := e.1) hv'
      have hml : metaLines (e :: es') = (e.1 ++ X) :: (rest ++ metaLines es') := by
        rw [metaLines_cons, show entryLines e = entryLines (e.1, e.2) by rfl,
          hfirst]
        simp
      rw [hml, List.foldl_cons, List.foldl_cons,
        parseYamlLine_flush (keyline_pre_false hk'ne hk'l X) _, hflush]

theorem foldl_metaLines (es : Metadata) :
    ∀ md : Metadata,
      (∀ p ∈ es, wfKey p.1 = true ∧ wfVal p.2 = true) →
      (es.map Prod.fst).Nodup →
      (∀ p ∈ es, ∀ q ∈ md, q.1 ≠ p.1) →
      finishParse (List.foldl parseYamlLine ⟨md, none, []⟩ (metaLines es)) =
        md ++ es := by
  induction es with
  | nil =>
      intro md _ _ _
      simp only [metaLines, List.map_nil, List.flatten_nil, List.foldl_nil,
        List.append_nil]
      rfl
  | cons e es' ih =>
      intro md hes hnd hfresh
      obtain ⟨k, v⟩ := e
      obtain ⟨hk, hv⟩ := hes (k, v) (List.mem_cons_self _ _)
      have hkfresh : ∀ q ∈ md, q.1 ≠ k :=
        fun q hq => hfresh (k, v) (List.mem_cons_self _ _) q hq
      have hknotin : ∀ p ∈ es', p.1 ≠ k := by
        intro p hp he
        have h1 : k ∉ es'.map Prod.fst := by
          rw [List.map_cons] at hnd
          exact (List.nodup_cons.mp hnd).1
        exact h1 (List.mem_map.mpr ⟨p, hp, he⟩)
      have hes' : ∀ p ∈ es', wfKey p.1 = true ∧ wfVal p.2 = true :=
        fun p hp => hes p (List.mem_cons_of_mem _ hp)
      have hnd' : (es'.map Prod.fst).Nodup := by
        rw [List.map_cons] at hnd
        exact (List.nodup_cons.mp hnd).2
      have hstep : ∀ w : YVal,
          (∀ p ∈ es', ∀ q ∈ md ++ [(k, w)], q.1 ≠ p.1) := by
        intro w p hp q hq
        rcases List.mem_append.mp hq with h | h
        · exact hfresh p (List.mem_cons_of_mem _ hp) q h
        · rw [List.mem_singleton] at h
          subst h
          exact fun he => hknotin p hp (he.symm ▸ rfl)
      have happ : ∀ w : YVal,
          (md ++ [(k, w)]) ++ es' = md ++ (k, w) :: es' := by
        intro w
        simp
      rw [metaLines_cons, List.foldl_append]
      cases v with
      | str s =>
          rw [show entryLines (k, .str s) = [k ++ lit ": " ++ s] from rfl,
            List.foldl_cons, List.foldl_nil,
            parseYamlLine_scalar hk (by simpa [wfVal] using hv) md,
            metaInsert_of_not_mem hkfresh,
            ih (md ++ [(k, .str s)]) hes' hnd' (hstep _), happ]
      | bool b => exact absurd hv (by simp [wfVal])
      | list items =>
          cases items with
          | nil =>
              rw [show entryLines (k, .list []) = [k ++ lit ": []"] from rfl,
                List.foldl_cons, List.foldl_nil,
                parseYamlLine_emptyList hk md,
                metaInsert_of_not_mem hkfresh,
                ih (md ++ [(k, .list [])]) hes' hnd' (hstep _), happ]
          | cons i items' =>
              have hitems : ∀ x ∈ i :: items', wfItem x = true := by
                simpa [wfVal, List.all_eq_true] using hv
              have hkne : k ≠ [] := (wfKey_spec hk).1
              rw [show entryLines (k, .list (i :: items')) =
                  (k ++ [':']) :: (i :: items').map (fun x => lit "  - " ++ x)
                  from rfl,
                List.foldl_cons, parseYamlLine_listOpen hk md,
                foldl_items hitems hkne md [],
                List.nil_append,
                foldl_flush_through es' hes' hkne md (by simp),
                metaInsert_of_not_mem hkfresh,
                ih (md ++ [(k, .list (i :: items'))]) hes' hnd' (hstep _), happ]

/-! ## The frontmatter round trip: assembling the document -/

theorem joinNL_cons_ne (x : Str) {ls : List Str} (h : ls ≠ []) :
    joinNL (x :: ls) = x ++ '\n' :: joinNL ls := by
  cases ls with
  | nil => exact absurd rfl h
  | cons y ys => rfl

theorem entryLines_facts {k : Str} {v : YVal} (hk : wfKey k = true)
    (hv : wfVal v = true) :
    ∀ L ∈ entryLines (k, v),
      '\n' ∉ L ∧ hasTriple L = false ∧ rstripChars L = L ∧ L ≠ [] := by
  obtain ⟨hkne, hkl, hkr, hkc, hkn, hkt⟩ := wfKey_spec hk
  cases v with
  | str s =>
      obtain ⟨hsne, hsl, hsr, hsn, hst, _, _⟩ :=
        wfScalar_spec (by simpa [wfVal] using hv)
      intro L hL
      rw [show entryLines (k, .str s) = [k ++ lit ": " ++ s] from rfl,
        List.mem_singleton] at hL
      subst hL
      refine ⟨?_, ?_, rstrip_append_nonempty hsr hsne _, by simp [hkne]⟩
      · intro hmem
        rcases List.mem_append.mp hmem with h | h
        · rcases List.mem_append.mp h with h | h
          · exact hkn h
          · exact absurd h (by decide)
        · exact hsn h
      · rw [show k ++ lit ": " ++ s = k ++ ':' :: (' ' :: s) by simp [lit]]
        refine hasTriple_append_sep (by decide) hkt ?_
        rw [hasTriple_cons_ne (by decide)]
        exact hst
  | bool b => exact absurd hv (by simp [wfVal])
  | list items =>
      have hitems : ∀ i ∈ items, wfItem i = true := by
        simpa [wfVal, List.all_eq_true] using hv
      cases items with
      | nil =>
          intro L hL
          rw [show entryLines (k, .list []) = [k ++ lit ": []"] from rfl,
            List.mem_singleton] at hL
          subst hL
          refine ⟨?_, ?_,
            rstrip_append_nonempty (l := lit ": []") (by decide) (by decide) _,
            by simp [hkne]⟩
          · intro hmem
            rcases List.mem_append.mp hmem with h | h
            · exact hkn h
            · exact absurd h (by decide)
          · rw [show k ++ lit ": []" = k ++ ':' :: (lit " []") by simp [lit]]
            exact hasTriple_append_sep (by decide) hkt (by decide)
      | cons i items' =>
          intro L hL
          rw [show entryLines (k, .list (i :: items')) =
              (k ++ [':']) :: (i :: items').map (fun x => lit "  - " ++ x)
              from rfl] at hL
          rcases List.mem_cons.mp hL with h | h
          · subst h
            refine ⟨?_, ?_, rstrip_concat_nonspace (by decide) k,
              by simp [hkne]⟩
            · intro hmem
              rcases List.mem_append.mp hmem with h | h
              · exact hkn h
              · exact absurd h (by decide)
            · exact hasTriple_append_sep (by decide) hkt (by decide)
          · rcases List.mem_map.mp h with ⟨x, hx, hxe⟩
            obtain ⟨hine, hil, hir, hin, hit⟩ := wfItem_spec (hitems x hx)
            subst hxe
            refine ⟨?_, ?_, rstrip_append_nonempty hir hine _,
              fun hcontra => hine (List.append_eq_nil.mp hcontra).2⟩
            · intro hmem
              rcases List.mem_append.mp hmem with h | h
              · exact absurd h (by decide)
              · exact hin h
            · rw [show lit "  - " ++ x = [' ', ' ', '-'] ++ ' ' :: x from rfl]
              exact hasTriple_append_sep (by decide) (by decide) hit

theorem metaLines_facts {m : Metadata}
    (hm : ∀ p ∈ m, wfKey p.1 = true ∧ wfVal p.2 = true) :
    ∀ L ∈ metaLines m,
      '\n' ∉ L ∧ hasTriple L = false ∧ rstripChars L = L ∧ L ≠ [] := by
  intro L hL
  unfold metaLines at hL
  rw [List.mem_flatten] at hL
  rcases hL with ⟨ls, hls, hLin⟩
  rcases List.mem_map.mp hls with ⟨p, hp, hpe⟩
  obtain ⟨hk, hv⟩ := hm p hp
  subst hpe
  exact entryLines_facts hk hv L hLin

theorem joinNL_rstrip :
    ∀ {ls : List Str}, ls ≠ [] → (∀ l ∈ ls, rstripChars l = l ∧ l ≠ []) →
      rstripChars (joinNL ls) = joinNL ls ∧ joinNL ls ≠ [] := by
  intro ls
  induction ls with
  | nil => intro h; exact absurd rfl h
  | cons l ls' ih =>
      intro _ hf
      cases hls' : ls' with
      | nil => exact hf l (List.mem_cons_self _ _)
      | cons l2 ls'' =>
          subst hls'
          obtain ⟨ihr, ihne⟩ :=
            ih (by simp) (fun x hx => hf x (List.mem_cons_of_mem _ hx))
          have hnl : rstripChars ('\n' :: joinNL (l2 :: ls'')) =
              '\n' :: joinNL (l2 :: ls'') := by
            rcases getLast_nonspace_of_rstrip_eq ihr ihne with ⟨y, c, hj, hc⟩
            rw [hj, show ('\n' :: (y ++ [c]) : Str) = ('\n' :: y) ++ [c]
              from rfl, rstrip_concat_nonspace hc]
          rw [joinNL_cons_ne l (by simp)]
          refine ⟨rstrip_append_nonempty hnl (by simp) l, by simp⟩

theorem joinNL_lstrip {L : Str} (hne : L ≠ []) (hl : lstripChars L = L)
    (ls : List Str) :
    lstripChars (joinNL (L :: ls)) = joinNL (L :: ls) := by
  cases ls with
  | nil => exact hl
  | cons l2 ls' =>
      rw [joinNL_cons_ne L (by simp)]
      exact lstrip_append_of_lstrip_eq hl hne _

/-- C2 (amended) — The round trip `parse(serialize(m, body)) = (m, body)`
holds for every metadata mapping with pairwise-distinct well-formed keys whose
values are well-formed scalar strings or lists of well-formed items (booleans
excluded, since `parse_frontmatter` never produces a boolean), and every body
that `strip()` leaves unchanged. -/
theorem frontmatter_roundtrip (m : Metadata) (body : Str)
    (hm : wfMeta m = true) (hbody : stripChars body = body) :
    parse_frontmatter (serialize_frontmatter m body) = (m, body) := by
  have hment : ∀ p ∈ m, wfKey p.1 = true ∧ wfVal p.2 = true := by
    unfold wfMeta at hm
    rw [Bool.and_eq_true, List.all_eq_true] at hm
    intro p hp
    have := hm.1 p hp
    rw [Bool.and_eq_true] at this
    exact this
  have hnd : (m.map Prod.fst).Nodup := by
    unfold wfMeta at hm
    rw [Bool.and_eq_true] at hm
    simpa using hm.2
  cases m with
  | nil =>
      have hcontent : serialize_frontmatter [] body =
          lit "---" ++ '\n' :: (lit "---" ++ ('\n' :: '\n' :: body)) := rfl
      unfold parse_frontmatter
      rw [hcontent, isPrefixOf_append_self]
      simp only [Bool.not_true, Bool.false_eq_true, if_false]
      unfold pySplit2
      rw [splitFirst_self _ (by decide)]
      dsimp only
      rw [show ('\n' :: (lit "---" ++ ('\n' :: '\n' :: body)) : Str) =
          ['\n'] ++ lit "---" ++ ('\n' :: '\n' :: body) by simp]
      rw [splitFirst_delim (a := ['\n']) (by decide) (by decide) (by decide) _]
      dsimp only
      rw [show stripChars ['\n'] = [] from by decide]
      rw [show splitOnChar '\n' [] = [[]] from rfl]
      rw [stripChars_cons_space (by decide), stripChars_cons_space (by decide),
        hbody]
      rw [show finishParse (List.foldl parseYamlLine ⟨[], none, []⟩ [[]]) = []
        from by decide]
  | cons e es =>
      obtain ⟨hk1, hv1⟩ := hment e (List.mem_cons_self _ _)
      obtain ⟨hk1ne, hk1l, _, _, _, _⟩ := wfKey_spec hk1
      obtain ⟨X, rest, hfirst⟩ := entryLines_exists_first (k := e.1) hv1
      have hml : metaLines (e :: es) = (e.1 ++ X) :: (rest ++ metaLines es) := by
        rw [metaLines_cons, show entryLines e = entryLines (e.1, e.2) from rfl,
          hfirst]
        simp
      have hmlne : metaLines (e :: es) ≠ [] := by
        rw [hml]
        simp
      have hLfacts := metaLines_facts hment
      have hL1ne : e.1 ++ X ≠ [] := by simp [hk1ne]
      have hL1l : lstripChars (e.1 ++ X) = e.1 ++ X :=
        lstrip_append_of_lstrip_eq hk1l hk1ne X
      have hyl : lstripChars (joinNL (metaLines (e :: es))) =
          joinNL (metaLines (e :: es)) := by
        rw [hml]
        exact joinNL_lstrip hL1ne hL1l _
      obtain ⟨hyr, hyne⟩ := joinNL_rstrip hmlne
        (fun l hl => ⟨(hLfacts l hl).2.2.1, (hLfacts l hl).2.2.2⟩)
      have htyj : hasTriple (joinNL (metaLines (e :: es))) = false :=
        hasTriple_joinNL (fun l hl => ⟨(hLfacts l hl).2.1, (hLfacts l hl).1⟩)
      have hcontent : serialize_frontmatter (e :: es) body =
          lit "---" ++ '\n' :: (joinNL (metaLines (e :: es)) ++
            '\n' :: (lit "---" ++ ('\n' :: '\n' :: body))) := by
        unfold serialize_frontmatter
        have hne2 : metaLines (e :: es) ++ [lit "---", [], body] ≠ [] := by
          simp
        have hne3 : ([lit "---", [], body] : List Str) ≠ [] := by simp
        rw [List.cons_append, joinNL_cons_ne _ hne2, joinNL_append hmlne hne3]
        rfl
      have hrest : ('\n' :: (joinNL (metaLines (e :: es)) ++
            '\n' :: (lit "---" ++ ('\n' :: '\n' :: body))) : Str) =
          ('\n' :: (joinNL (metaLines (e :: es)) ++ ['\n'])) ++ lit "---" ++
            ('\n' :: '\n' :: body) := by
        simp
      have ha_ne : ('\n' :: (joinNL (metaLines (e :: es)) ++ ['\n']) : Str) ≠ [] :=
        by simp
      have ha_last : ('\n' :: (joinNL (metaLines (e :: es)) ++ ['\n']) :
          Str).getLast? = some '\n' := by
        rw [show ('\n' :: (joinNL (metaLines (e :: es)) ++ ['\n']) : Str) =
          ('\n' :: joinNL (metaLines (e :: es))) ++ ['\n'] by simp]
        exact List.getLast?_concat _
      have ha_triple : hasTriple
          ('\n' :: (joinNL (metaLines (e :: es)) ++ ['\n'])) = false := by
        rw [hasTriple_cons_ne (by decide)]
        exact hasTriple_append_sep (by decide) htyj rfl
      have hstrip_a : stripChars ('\n' :: (joinNL (metaLines (e :: es)) ++
          ['\n'])) = joinNL (metaLines (e :: es)) := by
        rw [stripChars_cons_space (by decide)]
        unfold stripChars
        rw [lstrip_append_of_lstrip_eq hyl hyne, rstrip_append_space
          (by decide), hyr]
      unfold parse_frontmatter
      rw [hcontent, isPrefixOf_append_self]
      simp only [Bool.not_true, Bool.false_eq_true, if_false]
      unfold pySplit2
      rw [splitFirst_self _ (by decide)]
      dsimp only
      rw [hrest, splitFirst_delim ha_ne ha_last ha_triple _]
      dsimp only
      rw [hstrip_a,
        splitOnChar_joinNL hmlne (fun l hl => (hLfacts l hl).1),
        foldl_metaLines (e :: es) [] hment hnd
          (fun p _ q hq => absurd hq (List.not_mem_nil q)),
        List.nil_append,
        stripChars_cons_space (by decide), stripChars_cons_space (by decide),
        hbody]

theorem frontmatter_roundtrip_witness :
    parse_frontmatter
        (serialize_frontmatter
          [(lit "title", .str (lit "hello world")),
            (lit "tags", .list [lit "alpha", lit "beta"]),
            (lit "empty", .list [])]
          (lit "Some body text.")) =
      ([(lit "title", .str (lit "hello world")),
          (lit "tags", .list [lit "alpha", lit "beta"]),
          (lit "empty", .list [])],
        lit "Some body text.") :=
  frontmatter_roundtrip _ _ (by decide) (by decide)

/-- C2 fails as stated: a metadata mapping whose value is a boolean does not
round-trip — `serialize_frontmatter` writes `flag: true` but
`parse_frontmatter` reads the value back as the string `"true"`, not the
boolean. -/
theorem frontmatter_roundtrip_bool_counterexample :
    parse_frontmatter
        (serialize_frontmatter [(lit "flag", .bool true)] (lit "body")) =
      ([(lit "flag", .str (lit "true"))], lit "body") ∧
    (([(lit "flag", .str (lit "true"))], lit "body") :
        Metadata × Str) ≠
      ([(lit "flag", .bool true)], lit "body") :=
  ⟨by decide, by decide⟩

end Specctl
